import Mathlib

/-!
Shallow embedding of src/textinput/textinput.go (package textinput): a
line-oriented text-editing buffer with cursor, overflow and word-navigation
logic.

Conventions of the embedding:
* Go machine integers are modelled as Int (the program performs no
  arithmetic anywhere near the overflow range).
* Go slices are Lean lists; every slice index or slice expression that can
  go out of bounds in Go is Option-valued, with none standing for the Go
  runtime fault.
* The field value has Go type [][]rune and can be nil; it is modelled as
  Option (List (List Char)), none being the nil slice.  Go operations that
  are legal on a nil slice (len, range) are modelled accordingly.
* Loops whose termination is not structural carry an explicit fuel
  argument; a fueled function returns none when the fuel runs out and the
  fuel is otherwise semantically inert.
* External collaborators (the viewport component, the Bubble Tea runtime,
  the clipboard) are modelled at their interface exactly as the spec
  scopes them: the viewport is a record that stores the requested offsets
  and dimensions; its own Update with a cleared key map changes nothing
  and returns no command; commands are descriptions of future actions.
-/

namespace Textinput

/-! ## Go slice and integer primitives -/

/-- Go a[i] on a slice: none outside [0, len(a)). -/
def gget {α : Type} (l : List α) (i : Int) : Option α :=
  if 0 ≤ i then l[i.toNat]? else none

/-- Go a[i] = x: none outside [0, len(a)). -/
def gset {α : Type} (l : List α) (i : Int) (a : α) : Option (List α) :=
  if 0 ≤ i ∧ i < (l.length : Int) then some (l.set i.toNat a) else none

/-- Go a[:j]: none outside 0 ≤ j ≤ len(a). -/
def gtake {α : Type} (l : List α) (j : Int) : Option (List α) :=
  if 0 ≤ j ∧ j ≤ (l.length : Int) then some (l.take j.toNat) else none

/-- Go a[i:]: none outside 0 ≤ i ≤ len(a). -/
def gdrop {α : Type} (l : List α) (i : Int) : Option (List α) :=
  if 0 ≤ i ∧ i ≤ (l.length : Int) then some (l.drop i.toNat) else none

/-- Go len() as an Int. -/
def glen {α : Type} (l : List α) : Int := l.length

/-- Option-monad guard used to model a Go runtime fault condition. -/
def gguard (p : Prop) [Decidable p] : Option Unit :=
  if p then some () else none

/-- Go helper min (textinput.go). -/
def gmin (a b : Int) : Int := if a < b then a else b

/-- Go helper max (textinput.go). -/
def gmax (a b : Int) : Int := if a > b then a else b

/-- Go helper clamp (textinput.go): swaps the bounds when reversed. -/
def clamp (v low high : Int) : Int :=
  if high < low then gmin low (gmax high v) else gmin high (gmax low v)

/-- The zero rune, produced by Go's make([]rune, n). -/
def goNul : Char := Char.ofNat 0

/-- unicode.IsSpace: Go's White_Space property. -/
def isSpace (c : Char) : Bool :=
  let n := c.toNat
  (9 ≤ n && n ≤ 13) || n = 32 || n = 0x85 || n = 0xA0 || n = 0x1680 ||
  (0x2000 ≤ n && n ≤ 0x200A) || n = 0x2028 || n = 0x2029 || n = 0x202F ||
  n = 0x205F || n = 0x3000

/-- rw.RuneWidth, modelled from the external go-runewidth dependency
(default East-Asian setting): 0 for control characters, 2 for the wide
CJK ranges, 1 otherwise. -/
def runeWidth (c : Char) : Int :=
  let n := c.toNat
  if n < 0x20 ∨ (0x7F ≤ n ∧ n < 0xA0) then 0
  else if (0x1100 ≤ n ∧ n ≤ 0x115F) ∨ (0x2E80 ≤ n ∧ n ≤ 0x303E) ∨
          (0x3041 ≤ n ∧ n ≤ 0x33FF) ∨ (0x3400 ≤ n ∧ n ≤ 0x4DBF) ∨
          (0x4E00 ≤ n ∧ n ≤ 0x9FFF) ∨ (0xA000 ≤ n ∧ n ≤ 0xA4CF) ∨
          (0xAC00 ≤ n ∧ n ≤ 0xD7A3) ∨ (0xF900 ≤ n ∧ n ≤ 0xFAFF) ∨
          (0xFE30 ≤ n ∧ n ≤ 0xFE4F) ∨ (0xFF00 ≤ n ∧ n ≤ 0xFF60) ∨
          (0xFFE0 ≤ n ∧ n ≤ 0xFFE6) ∨ (0x20000 ≤ n ∧ n ≤ 0x2FFFD) ∨
          (0x30000 ≤ n ∧ n ≤ 0x3FFFD)
  then 2 else 1

/-- rw.StringWidth: sum of the rune widths. -/
def strWidth (l : List Char) : Int :=
  l.foldl (fun a c => a + runeWidth c) 0

/-- Leading-whitespace trim on a character list. -/
def trimLeft (l : List Char) : List Char := l.dropWhile isSpace

/-- Trailing-whitespace trim on a character list. -/
def trimRight (l : List Char) : List Char :=
  ((l.reverse).dropWhile isSpace).reverse

/-- strings.TrimSpace: trims whitespace from both ends. -/
def trimSpace (l : List Char) : List Char := trimRight (trimLeft l)

/-! ## Data model -/

/-- EchoMode (textinput.go). -/
inductive EchoMode where
  | normal
  | password
  | noneEcho
deriving Repr, DecidableEq

/-- CursorMode (textinput.go). -/
inductive CursorMode where
  | blinkMode
  | staticMode
  | hideMode
deriving Repr, DecidableEq

/-- The slice of viewport.Model state this component touches: its
dimensions and vertical offset.  The viewport is an external collaborator;
SetYOffset is modelled as storing the requested offset. -/
structure Viewport where
  width : Int
  height : Int
  yOffset : Int
deriving Repr, DecidableEq

/-- Model (textinput.go), restricted to the fields that the editing,
overflow and blink logic reads or writes.  The purely visual fields
(Prompt, Placeholder, the lipgloss styles, BlinkSpeed, EchoCharacter) are
inert in every operation modelled here. -/
structure Model where
  Err : Option String
  echoMode : EchoMode
  CharLimit : Int
  Width : Int
  LineLimit : Int
  Height : Int
  id : Int
  blinkTag : Int
  value : Option (List (List Char))
  focus : Bool
  blink : Bool
  col : Int
  row : Int
  offset : Int
  offsetRight : Int
  cursorMode : CursorMode
  viewport : Viewport
deriving Repr, DecidableEq

/-- The key types the Update switch distinguishes.  Key types it does not
handle fall into the catch-all constructor. -/
inductive KeyType where
  | backspace
  | up
  | down
  | enter
  | left
  | right
  | ctrlB
  | ctrlF
  | ctrlW
  | home
  | ctrlA
  | delete
  | ctrlD
  | ctrlE
  | endKey
  | ctrlK
  | ctrlU
  | ctrlV
  | ctrlN
  | ctrlP
  | runes
  | space
  | other
deriving Repr, DecidableEq

/-- The messages Update handles: key presses (with the alt modifier and
carried runes), the blink machinery messages, and the clipboard results. -/
inductive Msg where
  | key (t : KeyType) (alt : Bool) (runes : List Char)
  | initialBlink
  | blinkTimer (id : Int) (tag : Int)
  | blinkCanceled
  | pasteText (s : List Char)
  | pasteErr (e : String)
deriving Repr, DecidableEq

/-- The commands Update can return: nil, the Paste command, or a scheduled
blink timer carrying the (id, tag) pair its fired message will deliver. -/
inductive Cmd where
  | nilCmd
  | pasteCmd
  | blinkCmd (id : Int) (tag : Int)
deriving Repr, DecidableEq

/-- The rows of the buffer, with Go's nil slice reading as zero rows
(used to model len and range on a possibly-nil value). -/
def rowsD (m : Model) : List (List Char) := m.value.getD []

/-- Length (textinput.go): total number of characters over all rows. -/
def lengthM (m : Model) : Int :=
  (rowsD m).foldl (fun a r => a + glen r) 0

/-- Value (textinput.go): every row followed by a newline, concatenated,
then strings.TrimSpace. -/
def valueM (m : Model) : List Char :=
  trimSpace ((rowsD m).foldl (fun acc r => acc ++ r ++ ['\n']) [])

/-- Viewport.SetYOffset as used here: stores the requested offset. -/
def setYOffset (m : Model) (n : Int) : Model :=
  { m with viewport := { m.viewport with yOffset := n } }

/-- lineDown (textinput.go). -/
def lineDown (m : Model) : Model :=
  let m := if m.row < m.LineLimit - 1 then { m with row := m.row + 1 } else m
  setYOffset m (m.row - Int.tdiv m.Height 2)

/-- lineUp (textinput.go). -/
def lineUp (m : Model) : Model :=
  let m := if m.row > 0 then { m with row := m.row - 1 } else m
  setYOffset m (m.row - Int.tdiv m.Height 2)

/-- handleColumnBoundaries (textinput.go): clamp the column into the
current row before a mutation. -/
def handleColumnBoundariesM (m : Model) : Option Model := do
  let rows ← m.value
  let r ← gget rows m.row
  pure { m with col := clamp m.col 0 (glen r) }

/-- The row-capacity scan of canHandleMoreInput: sum of the display widths
of the rows from index i up to LineLimit (Go loop, faulting when LineLimit
exceeds the row count).  The fuel is passed as the exact iteration count
by the caller, so it never runs out. -/
def spaceUsedLoop (fuel : Nat) (m : Model) (i : Int) : Option Int :=
  match fuel with
  | 0 => if 0 < m.LineLimit - i then none else pure 0
  | fuel + 1 =>
    if 0 < m.LineLimit - i then do
      let rows ← m.value
      let r ← gget rows i
      let rest ← spaceUsedLoop fuel m (i + 1)
      pure (strWidth r + rest)
    else pure 0

/-- canHandleMoreInput (textinput.go). -/
def canHandleMoreInputM (m : Model) : Option Bool :=
  if m.LineLimit ≤ 1 then
    pure (decide (m.CharLimit ≤ 0 ∨ lengthM m < m.CharLimit))
  else if m.CharLimit ≥ 0 ∧ lengthM m ≥ m.CharLimit then
    pure false
  else do
    let total := (m.LineLimit - m.row) * m.Width
    let used ← spaceUsedLoop (m.LineLimit - m.row).toNat m m.row
    pure (decide (used < total))

/-- The row-wrapping loop of handleVerticalOverflow: whenever a row other
than the last holds at least Width characters, the excess past Width moves
to the front of the next row, cascading.  The fuel is passed as the row
count by the caller; each step consumes one row, so it never runs out. -/
def wrapPassF (fuel : Nat) (w : Int) : List (List Char) →
    Option (List (List Char))
  | [] => some []
  | [r] => some [r]
  | r :: r2 :: rest =>
    match fuel with
    | 0 => none
    | fuel + 1 =>
      if glen r ≥ w then do
        let _ ← gguard (0 ≤ w)
        let rest' ← wrapPassF fuel w ((r.drop w.toNat ++ r2) :: rest)
        pure (r.take w.toNat :: rest')
      else do
        let rest' ← wrapPassF fuel w (r2 :: rest)
        pure (r :: rest')

/-- The wrapping loop at its actual fuel. -/
def wrapPass (w : Int) (rows : List (List Char)) :
    Option (List (List Char)) :=
  wrapPassF rows.length w rows

/-- Rightward scan of handleHorizontalOverflow (grow offsetRight from the
new left offset until the accumulated width exceeds Width). -/
def hLoop1 (lf : Nat) (runes : List (List Char)) (mrow width : Int)
    (i w : Int) : Option Int :=
  match lf with
  | 0 => none
  | lf + 1 =>
    if i < glen runes ∧ w ≤ width then do
      let r ← gget runes mrow
      let c ← gget r i
      let w := w + runeWidth c
      if w ≤ width + 1 then hLoop1 lf runes mrow width (i + 1) w
      else hLoop1 lf runes mrow width i w
    else pure i

/-- Leftward scan of handleHorizontalOverflow (shrink the window's left
edge from offsetRight until the accumulated width reaches Width). -/
def hLoop2 (lf : Nat) (runes : List (List Char)) (mrow width : Int)
    (i w : Int) : Option Int :=
  match lf with
  | 0 => none
  | lf + 1 =>
    if i > 0 ∧ w < width then do
      let r ← gget runes mrow
      let c ← gget r i
      let w := w + runeWidth c
      if w ≤ width then hLoop2 lf runes mrow width (i - 1) w
      else hLoop2 lf runes mrow width i w
    else pure i

/-- handleHorizontalOverflow (textinput.go).  Note that the two scans
slice the rows array (not the current row) by character offsets, exactly
as the source does. -/
def handleHorizontalOverflowM (lf : Nat) (m : Model) : Option Model := do
  let rows ← m.value
  let r ← gget rows m.row
  if m.Width ≤ 0 ∨ strWidth r ≤ m.Width then
    pure { m with offset := 0, offsetRight := glen r }
  else do
    let m := { m with offsetRight := gmin m.offsetRight (glen r) }
    if m.col < m.offset then do
      let m := { m with offset := m.col }
      let runes ← gdrop rows m.offset
      let i ← hLoop1 lf runes m.row m.Width 0 0
      pure { m with offsetRight := m.offset + i }
    else if m.col ≥ m.offsetRight then do
      let m := { m with offsetRight := m.col }
      let runes ← gtake rows m.offsetRight
      let i ← hLoop2 lf runes m.row m.Width (glen runes - 1) 0
      pure { m with offset := m.offsetRight - (glen runes - 1 - i) }
    else pure m

/-- handleOverflow (textinput.go): vertical wrap-and-scroll in multi-line
mode, horizontal viewport tracking otherwise.  The block guarded by
col > Width inlines cursorStart (setCursor 0), which recursively runs the
overflow pass; the fuel bounds that recursion. -/
def handleOverflowF : Nat → Model → Option Model
  | 0, _ => none
  | f + 1, m =>
    if m.LineLimit > 1 then do
      let m ← (match m.value with
        | none => pure m
        | some rows => do
            let rows' ← wrapPass m.Width rows
            pure { m with value := some rows' })
      if m.col > m.Width ∧ m.row ≠ m.LineLimit - 1 then do
        let m := lineDown m
        -- inlined m.cursorStart() = m.setCursor(0)
        let rows ← m.value
        let r ← gget rows m.row
        let m := { m with col := clamp 0 0 (glen r) }
        let m ← handleOverflowF f m
        let m := { m with blink := decide (m.cursorMode = CursorMode.hideMode) }
        pure { m with col := m.col + 1 }
      else pure m
    else handleHorizontalOverflowM (f + 1) m

/-- setCursor (textinput.go): clamp the column into the current row, run
the overflow pass, set the blink flag, and report whether the cursor
blink should reset. -/
def setCursorF (f : Nat) (m : Model) (c : Int) : Option (Model × Bool) := do
  let rows ← m.value
  let r ← gget rows m.row
  let m := { m with col := clamp c 0 (glen r) }
  let m ← handleOverflowF f m
  let m := { m with blink := decide (m.cursorMode = CursorMode.hideMode) }
  pure (m, decide (m.cursorMode = CursorMode.blinkMode))

/-- cursorStart (textinput.go). -/
def cursorStartF (f : Nat) (m : Model) : Option (Model × Bool) :=
  setCursorF f m 0

/-- cursorEnd (textinput.go). -/
def cursorEndF (f : Nat) (m : Model) : Option (Model × Bool) := do
  let rows ← m.value
  let r ← gget rows m.row
  setCursorF f m (glen r)

/-- deleteBeforeCursor (textinput.go). -/
def deleteBeforeCursorF (f : Nat) (m : Model) : Option (Model × Bool) := do
  let rows ← m.value
  let r ← gget rows m.row
  let rest ← gdrop r m.col
  let rows ← gset rows m.row rest
  let m := { m with value := some rows, offset := 0 }
  setCursorF f m 0

/-- deleteAfterCursor (textinput.go). -/
def deleteAfterCursorF (f : Nat) (m : Model) : Option (Model × Bool) := do
  let rows ← m.value
  let r ← gget rows m.row
  let kept ← gtake r m.col
  let rows ← gset rows m.row kept
  let m := { m with value := some rows }
  setCursorF f m (glen kept)

end Textinput

namespace Textinput

/-! ## Word deletion and navigation -/

/-- First loop of deleteWordLeft: step left over the run of whitespace
immediately left of the cursor (the loop re-reads the buffer each
iteration because setCursor runs the overflow pass). -/
def dwlSkipSpaces (lf f : Nat) (m : Model) (blink : Bool) :
    Option (Model × Bool) :=
  match lf with
  | 0 => none
  | lf + 1 => do
    let rows ← m.value
    let r ← gget rows m.row
    let c ← gget r m.col
    if isSpace c then
      if m.col ≤ 0 then pure (m, blink)
      else do
        let (m, b) ← setCursorF f m (m.col - 1)
        dwlSkipSpaces lf f m b
    else pure (m, blink)

/-- Second loop of deleteWordLeft: step left over the word, stopping just
after the previous space. -/
def dwlSkipWord (lf f : Nat) (m : Model) (blink : Bool) :
    Option (Model × Bool) :=
  match lf with
  | 0 => none
  | lf + 1 =>
    if m.col > 0 then do
      let rows ← m.value
      let r ← gget rows m.row
      let c ← gget r m.col
      if ¬ isSpace c then do
        let (m, b) ← setCursorF f m (m.col - 1)
        dwlSkipWord lf f m b
      else do
        -- keep the previous space (the guard col > 0 holds here)
        let (m, b) ← setCursorF f m (m.col + 1)
        pure (m, b)
    else pure (m, blink)

/-- deleteWordLeft (textinput.go). -/
def deleteWordLeftF (f : Nat) (m : Model) : Option (Model × Bool) :=
  if m.col = 0 then pure (m, false)
  else do
    let rows ← m.value
    let r ← gget rows m.row
    if glen r = 0 then pure (m, false)
    else if m.echoMode ≠ EchoMode.normal then deleteBeforeCursorF f m
    else do
      let oldCol := m.col
      let (m, b) ← setCursorF f m (m.col - 1)
      let (m, b) ← dwlSkipSpaces f f m b
      let (m, b) ← dwlSkipWord f f m b
      let rows ← m.value
      let r ← gget rows m.row
      let rows ←
        if oldCol > glen r then do
          let kept ← gtake r m.col
          gset rows m.row kept
        else do
          let a ← gtake r m.col
          let b2 ← gdrop r oldCol
          gset rows m.row (a ++ b2)
      pure ({ m with value := some rows }, b)

/-- First loop of deleteWordRight: step right over the run of whitespace
at the cursor.  The loop condition indexes the row before the bounds
check, exactly as the source does. -/
def dwrSkipSpaces (lf f : Nat) (m : Model) : Option Model :=
  match lf with
  | 0 => none
  | lf + 1 => do
    let rows ← m.value
    let r ← gget rows m.row
    let c ← gget r m.col
    if isSpace c then do
      let (m, _) ← setCursorF f m (m.col + 1)
      let rows ← m.value
      let r ← gget rows m.row
      if m.col ≥ glen r then pure m
      else dwrSkipSpaces lf f m
    else pure m

/-- Second loop of deleteWordRight: step right over the word. -/
def dwrSkipWord (lf f : Nat) (m : Model) : Option Model :=
  match lf with
  | 0 => none
  | lf + 1 => do
    let rows ← m.value
    let r ← gget rows m.row
    if m.col < glen r then do
      let c ← gget r m.col
      if ¬ isSpace c then do
        let (m, _) ← setCursorF f m (m.col + 1)
        dwrSkipWord lf f m
      else pure m
    else pure m

/-- deleteWordRight (textinput.go). -/
def deleteWordRightF (f : Nat) (m : Model) : Option (Model × Bool) := do
  let rows ← m.value
  let r ← gget rows m.row
  if m.col ≥ glen r ∨ glen r = 0 then pure (m, false)
  else if m.echoMode ≠ EchoMode.normal then deleteAfterCursorF f m
  else do
    let oldCol := m.col
    let (m, _) ← setCursorF f m (m.col + 1)
    let m ← dwrSkipSpaces f f m
    let m ← dwrSkipWord f f m
    let rows ← m.value
    let r ← gget rows m.row
    let rows ←
      if m.col > glen r then do
        let kept ← gtake r oldCol
        gset rows m.row kept
      else do
        let a ← gtake r oldCol
        let b ← gdrop r m.col
        gset rows m.row (a ++ b)
    let m := { m with value := some rows }
    setCursorF f m oldCol

/-- One scanning loop of wordLeft: while i ≥ 0 and the character at
min(i, len-1) is (for spaces=true) or is not (for spaces=false)
whitespace, move the cursor one left and decrement i. -/
def wlLoop (spaces : Bool) (lf f : Nat) (m : Model) (i : Int)
    (blink : Bool) : Option (Model × Int × Bool) :=
  match lf with
  | 0 => none
  | lf + 1 =>
    if i ≥ 0 then do
      let rows ← m.value
      let r ← gget rows m.row
      let c ← gget r (gmin i (glen r - 1))
      if isSpace c = spaces then do
        let (m, b) ← setCursorF f m (m.col - 1)
        wlLoop spaces lf f m (i - 1) b
      else pure (m, i, blink)
    else pure (m, i, blink)

/-- wordLeft (textinput.go). -/
def wordLeftF (f : Nat) (m : Model) : Option (Model × Bool) :=
  if m.col = 0 then pure (m, false)
  else do
    let rows ← m.value
    let r ← gget rows m.row
    if glen r = 0 then pure (m, false)
    else if m.echoMode ≠ EchoMode.normal then cursorStartF f m
    else do
      let (m, i, b) ← wlLoop true f f m (m.col - 1) false
      let (m, _, b) ← wlLoop false f f m i b
      pure (m, b)

/-- One scanning loop of wordRight: while i < len(row) and the character
at i is (resp. is not) whitespace, move the cursor one right and
increment i. -/
def wrLoop (spaces : Bool) (lf f : Nat) (m : Model) (i : Int)
    (blink : Bool) : Option (Model × Int × Bool) :=
  match lf with
  | 0 => none
  | lf + 1 => do
    let rows ← m.value
    let r ← gget rows m.row
    if i < glen r then do
      let c ← gget r i
      if isSpace c = spaces then do
        let (m, b) ← setCursorF f m (m.col + 1)
        wrLoop spaces lf f m (i + 1) b
      else pure (m, i, blink)
    else pure (m, i, blink)

/-- wordRight (textinput.go). -/
def wordRightF (f : Nat) (m : Model) : Option (Model × Bool) := do
  let rows ← m.value
  let r ← gget rows m.row
  if m.col ≥ glen r ∨ glen r = 0 then pure (m, false)
  else if m.echoMode ≠ EchoMode.normal then cursorEndF f m
  else do
    let (m, i, b) ← wrLoop true f f m m.col false
    let (m, _, b) ← wrLoop false f f m i b
    pure (m, b)

/-! ## Paste -/

/-- The insertion loop of handlePaste.  head is the slice value[:col0]
of the rows array (sharing its backing store), so writing head[row]
requires row < col0; each inserted rune is appended to the end of row
`row` of the buffer.  availSpace is decremented, and the loop broken,
only when CharLimit > 0. -/
def pasteLoop (charLimit col0 : Int) :
    List Char → List (List Char) → Int → Int → Int →
    Option (List (List Char) × Int × Int)
  | [], rows, col, avail, _ => some (rows, col, avail)
  | c :: rest, rows, col, avail, row => do
    let _ ← gguard (0 ≤ row ∧ row < col0)
    let cur ← gget rows row
    let rows ← gset rows row (cur ++ [c])
    let col := col + 1
    if charLimit > 0 then
      let avail := avail - 1
      if avail ≤ 0 then some (rows, col, avail)
      else pasteLoop charLimit col0 rest rows col avail row
    else pasteLoop charLimit col0 rest rows col avail row

/-- handlePaste (textinput.go).  Faithfully reproduces the source's
confusion of rows and columns: head and tailSrc slice the rows array by
the cursor column, and tail is a rune slice of length len(tailSrc)
copy-filled from the row tailSrc[row] (zero-padded by make). -/
def handlePasteF (f : Nat) (m : Model) (v : List Char) :
    Option (Model × Bool) := do
  let rows ← m.value
  let availSpace : Int ←
    if m.CharLimit > 0 then do
      let r ← gget rows m.row
      pure (m.CharLimit - glen r)
    else pure 0
  if m.CharLimit > 0 ∧ availSpace ≤ 0 then pure (m, false)
  else do
    let paste :=
      if m.CharLimit > 0 ∧ availSpace < glen v then
        v.take (glen v - availSpace).toNat
      else v
    let _ ← gtake rows m.col          -- head := value[:col]
    let tailSrc ← gdrop rows m.col    -- tailSrc := value[col:]
    let src ← gget tailSrc m.row      -- copy(tail, tailSrc[row])
    let tail := src.take tailSrc.length ++
      List.replicate (tailSrc.length - src.length) goNul
    let (rows, col, _) ← pasteLoop m.CharLimit m.col paste rows m.col
      availSpace m.row
    -- value[row] = append(head[row], tail...)
    let _ ← gguard (0 ≤ m.row ∧ m.row < m.col)
    let cur ← gget rows m.row
    let rows ← gset rows m.row (cur ++ tail)
    let m := { m with value := some rows, col := col }
    setCursorF f m m.col

end Textinput

namespace Textinput

/-! ## The Update loop -/

/-- The backspace line-merge row shift: for i from start while
i < stop, value[i] = value[i+1].  The fuel is the exact iteration count
at the call site. -/
def shiftUpLoop (fuel : Nat) (rows : List (List Char)) (start stop : Int) :
    Option (List (List Char)) :=
  match fuel with
  | 0 => if 0 < stop - start then none else some rows
  | fuel + 1 =>
    if 0 < stop - start then do
      let x ← gget rows (start + 1)
      let rows ← gset rows start x
      shiftUpLoop fuel rows (start + 1) stop
    else some rows

/-- The row shift at its actual fuel. -/
def shiftUpF (rows : List (List Char)) (start stop : Int) :
    Option (List (List Char)) :=
  shiftUpLoop (stop - start).toNat rows start stop

/-- The enter line-split row shift: for i from hi while i > lo,
value[i] = a copy of value[i-1].  The fuel is the exact iteration count
at the call site. -/
def shiftDownLoop (fuel : Nat) (rows : List (List Char)) (lo hi : Int) :
    Option (List (List Char)) :=
  match fuel with
  | 0 => if 0 < hi - lo then none else some rows
  | fuel + 1 =>
    if 0 < hi - lo then do
      let x ← gget rows (hi - 1)
      let rows ← gset rows hi x
      shiftDownLoop fuel rows lo (hi - 1)
    else some rows

/-- The row shift at its actual fuel. -/
def shiftDownF (rows : List (List Char)) (lo hi : Int) :
    Option (List (List Char)) :=
  shiftDownLoop (hi - lo).toNat rows lo hi

/-- The regular-character branch of the KeyRunes / KeySpace case: the
height guard, the column clamp, the capacity check, and the splice. -/
def insertF (f : Nat) (m : Model) (runes : List Char) : Option Model := do
  let stop ←
    if m.Height > 1 ∧ m.row ≥ m.LineLimit - 1 then do
      let rows ← m.value
      let r ← gget rows m.row
      pure (decide (glen r ≥ m.Width))
    else pure false
  if stop then pure m
  else do
    let m ← handleColumnBoundariesM m
    let can ← canHandleMoreInputM m
    if can then do
      let rows ← m.value
      let r ← gget rows m.row
      let a ← gtake r m.col
      let b ← gdrop r m.col
      let rows ← gset rows m.row (a ++ runes ++ b)
      let m := { m with value := some rows }
      let (m, _) ← setCursorF f m (m.col + glen runes)
      pure m
    else pure m

/-- The tea.KeyMsg switch of Update, except the KeyCtrlV case (which
returns early and is handled by updateF itself).  Cases the switch does
not mention fall through unchanged. -/
def keyCaseF (f : Nat) (m : Model) (t : KeyType) (alt : Bool)
    (runes : List Char) : Option Model :=
  match t with
  | KeyType.backspace =>
    if alt then do
      let (m, _) ← deleteWordLeftF f m
      pure m
    else
      if m.col = 0 ∧ m.row > 0 then do
        let rows ← m.value
        let cur ← gget rows m.row
        let rowIsEmpty := cur.isEmpty
        let m := lineUp m
        let (m, _) ← cursorEndF f m
        let rows ← m.value
        let r ← gget rows m.row
        if ¬ rowIsEmpty ∧ glen r ≥ m.Width then pure m
        else do
          let nxt ← gget rows (m.row + 1)
          let rows ← gset rows m.row (r ++ nxt)
          let rows ← shiftUpF rows (m.row + 1) (m.LineLimit - 1)
          let rows ← gset rows (m.LineLimit - 1) []
          pure { m with value := some rows }
      else do
        let rows ← m.value
        let r ← gget rows m.row
        if glen r > 0 then do
          let a ← gtake r (gmax 0 (m.col - 1))
          let b ← gdrop r m.col
          let rows ← gset rows m.row (a ++ b)
          let m := { m with value := some rows }
          if m.col > 0 then do
            let (m, _) ← setCursorF f m (m.col - 1)
            pure m
          else pure m
        else pure m
  | KeyType.up => pure (lineUp m)
  | KeyType.down => pure (lineDown m)
  | KeyType.enter => do
    let m ← handleColumnBoundariesM m
    let lastRow := m.row
    let m := lineDown m
    let currentRow := m.row
    if m.LineLimit ≤ 1 then pure m
    else do
      let rows ← m.value
      let lastLine ← gget rows (m.LineLimit - 1)
      if glen lastLine > 0 then pure m
      else do
        let rows ← shiftDownF rows currentRow (m.LineLimit - 1)
        let oldRow ← gget rows lastRow
        let s1 ← gtake oldRow m.col
        let s2 ← gdrop oldRow m.col
        let rows ←
          if lastRow = currentRow then gset rows currentRow s2
          else do
            let rows ← gset rows lastRow s1
            gset rows currentRow s2
        let m := { m with value := some rows }
        if lastRow ≠ currentRow then pure { m with col := 0 } else pure m
  | KeyType.left =>
    if alt then do
      let (m, _) ← wordLeftF f m
      pure m
    else do
      let m ←
        if m.LineLimit > 1 ∧ m.col = 0 ∧ m.row ≠ 0 then do
          let m := lineUp m
          let (m, _) ← cursorEndF f m
          pure { m with col := m.col + 1 }
        else pure m
      if m.col > 0 then do
        let (m, _) ← setCursorF f m (m.col - 1)
        pure m
      else pure m
  | KeyType.ctrlB =>
    if alt then do
      let (m, _) ← wordLeftF f m
      pure m
    else do
      let m ←
        if m.LineLimit > 1 ∧ m.col = 0 ∧ m.row ≠ 0 then do
          let m := lineUp m
          let (m, _) ← cursorEndF f m
          pure { m with col := m.col + 1 }
        else pure m
      if m.col > 0 then do
        let (m, _) ← setCursorF f m (m.col - 1)
        pure m
      else pure m
  | KeyType.right =>
    if alt then do
      let (m, _) ← wordRightF f m
      pure m
    else do
      let m ←
        if m.LineLimit > 1 then do
          let rows ← m.value
          let r ← gget rows m.row
          if m.col ≥ glen r ∧ m.row ≠ m.LineLimit - 1 then do
            let m := lineDown m
            let (m, _) ← cursorStartF f m
            pure { m with col := m.col - 1 }
          else pure m
        else pure m
      let rows ← m.value
      let r ← gget rows m.row
      if m.col < glen r then do
        let (m, _) ← setCursorF f m (m.col + 1)
        pure m
      else pure m
  | KeyType.ctrlF =>
    if alt then do
      let (m, _) ← wordRightF f m
      pure m
    else do
      let m ←
        if m.LineLimit > 1 then do
          let rows ← m.value
          let r ← gget rows m.row
          if m.col ≥ glen r ∧ m.row ≠ m.LineLimit - 1 then do
            let m := lineDown m
            let (m, _) ← cursorStartF f m
            pure { m with col := m.col - 1 }
          else pure m
        else pure m
      let rows ← m.value
      let r ← gget rows m.row
      if m.col < glen r then do
        let (m, _) ← setCursorF f m (m.col + 1)
        pure m
      else pure m
  | KeyType.ctrlW => do
    let m ← handleColumnBoundariesM m
    let (m, _) ← deleteWordLeftF f m
    pure m
  | KeyType.home => do
    let (m, _) ← cursorStartF f m
    pure m
  | KeyType.ctrlA => do
    let (m, _) ← cursorStartF f m
    pure m
  | KeyType.delete => do
    let m ← handleColumnBoundariesM m
    let rows ← m.value
    let r ← gget rows m.row
    if glen r > 0 ∧ m.col < glen r then do
      let a ← gtake r m.col
      let b ← gdrop r (m.col + 1)
      let rows ← gset rows m.row (a ++ b)
      pure { m with value := some rows }
    else pure m
  | KeyType.ctrlD => do
    let m ← handleColumnBoundariesM m
    let rows ← m.value
    let r ← gget rows m.row
    if glen r > 0 ∧ m.col < glen r then do
      let a ← gtake r m.col
      let b ← gdrop r (m.col + 1)
      let rows ← gset rows m.row (a ++ b)
      pure { m with value := some rows }
    else pure m
  | KeyType.ctrlE => do
    let (m, _) ← cursorEndF f m
    pure m
  | KeyType.endKey => do
    let (m, _) ← cursorEndF f m
    pure m
  | KeyType.ctrlK => do
    let m ← handleColumnBoundariesM m
    let (m, _) ← deleteAfterCursorF f m
    pure m
  | KeyType.ctrlU => do
    let m ← handleColumnBoundariesM m
    let (m, _) ← deleteBeforeCursorF f m
    pure m
  | KeyType.ctrlN => pure (lineDown m)
  | KeyType.ctrlP => pure (lineUp m)
  | KeyType.runes =>
    if alt then
      if runes = ['d'] then do
        let (m, _) ← deleteWordRightF f m
        pure m
      else if runes = ['b'] then do
        let (m, _) ← wordLeftF f m
        pure m
      else if runes = ['f'] then do
        let (m, _) ← wordRightF f m
        pure m
      else insertF f m runes
    else insertF f m runes
  | KeyType.space =>
    if alt then
      if runes = ['d'] then do
        let (m, _) ← deleteWordRightF f m
        pure m
      else if runes = ['b'] then do
        let (m, _) ← wordLeftF f m
        pure m
      else if runes = ['f'] then do
        let (m, _) ← wordRightF f m
        pure m
      else insertF f m runes
    else insertF f m runes
  | _ => pure m

/-- blinkCmd (textinput.go), as its effect on the model: cancel the
pending timer context, bump the tag, and return a command that will
deliver a blink message carrying the current (id, tag). -/
def blinkCmdM (m : Model) : Model × Cmd :=
  if m.cursorMode ≠ CursorMode.blinkMode then (m, Cmd.nilCmd)
  else
    let m := { m with blinkTag := m.blinkTag + 1 }
    (m, Cmd.blinkCmd m.id m.blinkTag)

/-- Update (textinput.go).  The viewport's own Update is the identity
with a nil command (its key map is cleared at construction and no message
modelled here reaches its mouse/resize handling), so the command returned
by the fall-through path is nil. -/
def updateF (f : Nat) (m : Model) (msg : Msg) : Option (Model × Cmd) :=
  if ¬ m.focus then some ({ m with blink := true }, Cmd.nilCmd)
  else do
    let m ←
      match m.value with
      | some _ => pure m
      | none =>
        if 0 ≤ m.LineLimit then
          pure { m with
            value := some (List.replicate m.LineLimit.toNat ([] : List Char)),
            viewport := { m.viewport with height := m.Height, width := m.Width } }
        else none
    match msg with
    | Msg.key KeyType.ctrlV _ _ => pure (m, Cmd.pasteCmd)
    | Msg.key t alt runes => do
      let m ← keyCaseF f m t alt runes
      let m ← handleOverflowF f m
      pure (m, Cmd.nilCmd)
    | Msg.initialBlink =>
      if m.cursorMode ≠ CursorMode.blinkMode ∨ ¬ m.focus then pure (m, Cmd.nilCmd)
      else pure (blinkCmdM m)
    | Msg.blinkTimer mid mtag =>
      if m.cursorMode ≠ CursorMode.blinkMode ∨ ¬ m.focus then pure (m, Cmd.nilCmd)
      else if mid ≠ m.id ∨ mtag ≠ m.blinkTag then pure (m, Cmd.nilCmd)
      else
        let m := { m with blink := ¬ m.blink }
        pure (blinkCmdM m)
    | Msg.blinkCanceled => pure (m, Cmd.nilCmd)
    | Msg.pasteText s => do
      let (m, _) ← handlePasteF f m s
      let m ← handleOverflowF f m
      pure (m, Cmd.nilCmd)
    | Msg.pasteErr e => do
      let m := { m with Err := some e }
      let m ← handleOverflowF f m
      pure (m, Cmd.nilCmd)

end Textinput

namespace Textinput

/-- New (textinput.go), with the instance id injected in place of the
global counter: empty nil buffer, blurred, blink mode, no limits. -/
def newM (id : Int) : Model :=
  { Err := none
    echoMode := EchoMode.normal
    CharLimit := 0
    Width := 0
    LineLimit := 0
    Height := 0
    id := id
    blinkTag := 0
    value := none
    focus := false
    blink := true
    col := 0
    row := 0
    offset := 0
    offsetRight := 0
    cursorMode := CursorMode.blinkMode
    viewport := { width := 0, height := 0, yOffset := 0 } }

end Textinput

namespace Textinput

/-! ## Claim C10: unfocused Update is a blink-reset no-op -/

/-- C10: for every model that is not focused and every message, Update
returns the model with the blink flag set to true and every other field
unchanged, together with a nil command. -/
theorem c10_unfocused_noop (f : Nat) (m : Model) (msg : Msg)
    (h : m.focus = false) :
    updateF f m msg = some ({ m with blink := true }, Cmd.nilCmd) := by
  simp [updateF, h]

/-- C10 witness: a blurred fresh model ignores a backspace key. -/
theorem c10_unfocused_noop_witness :
    (newM 2).focus = false ∧
      updateF 1 (newM 2) (Msg.key KeyType.backspace false []) =
        some ({ newM 2 with blink := true }, Cmd.nilCmd) :=
  ⟨rfl, c10_unfocused_noop 1 (newM 2) (Msg.key KeyType.backspace false []) rfl⟩

/-! ## Claim C1: the char-limit invariant is violated by the code -/

/-- A focused single-line input with a two-character limit. -/
def c1Model : Model := { newM 1 with focus := true, CharLimit := 2, LineLimit := 1 }

/-- C1 (code bug): a single key message carrying the three runes abc is
inserted wholesale once Length < CharLimit, leaving Length() = 3 above
CharLimit = 2; the code truncates nothing. -/
theorem c1_charLimit_exceeded_by_multirune_insert :
    c1Model.CharLimit = 2 ∧
      (updateF 20 c1Model (Msg.key KeyType.runes false ['a', 'b', 'c'])).map
          (fun p => (p.1.value, lengthM p.1)) =
        some (some [['a', 'b', 'c']], 3) := by
  constructor
  · rfl
  · decide

/-! ## Claim C2: bounds safety is violated by the code -/

/-- A focused fresh single-line input (one empty row, cursor at origin). -/
def c2Model : Model := { newM 1 with focus := true, LineLimit := 1 }

/-- C2 (code bug): delivering a one-character paste result to a focused
single-line model faults: handlePaste slices the rows array by the cursor
column (head = value[:col]) and indexes head[row] with row ≥ col, an
out-of-bounds access (a Go panic), modelled as none. -/
theorem c2_paste_out_of_bounds :
    c2Model.focus = true ∧
      updateF 20 c2Model (Msg.pasteText ['a']) = none := by
  constructor
  · rfl
  · decide

/-! ## Claim C3: CharLimit = 0 is not unconstrained in multi-line mode -/

/-- A focused empty multi-line input, LineLimit 2, Width 5, CharLimit 0. -/
def c3Model : Model :=
  { newM 1 with focus := true, LineLimit := 2, Width := 5, Height := 2 }

/-- C3 (code bug): with CharLimit = 0 (documented as no limit) the
multi-line capacity check reads CharLimit ≥ 0 and Length ≥ CharLimit,
which always holds, so a regular character is rejected and the buffer
stays empty. -/
theorem c3_char_zero_blocks_multiline_insert :
    c3Model.CharLimit = 0 ∧ c3Model.LineLimit = 2 ∧ c3Model.Width = 5 ∧
      (updateF 20 c3Model (Msg.key KeyType.runes false ['a'])).map
          (fun p => (p.1.value, lengthM p.1)) =
        some (some [[], []], 0) := by
  refine ⟨rfl, rfl, rfl, ?_⟩
  decide

/-! ## Claim C4: paste semantics are violated by the code -/

/-- A focused five-row input, CharLimit 4, row0 = "a", cursor (0, 1). -/
def c4Model : Model :=
  { newM 1 with
    focus := true, LineLimit := 5, Width := 10, Height := 5, CharLimit := 4,
    value := some [['a'], [], [], [], []], col := 1, row := 0 }

/-- C4 (code bug): pasting "xy" with capacity 3 remaining should leave
row0 = "axy" and Length 3; instead the row/column mix-up in handlePaste
appends four zero runes copied out of the rows slice, leaving Length 7,
above CharLimit = 4. -/
theorem c4_paste_corrupts_buffer :
    c4Model.CharLimit = 4 ∧
      (updateF 20 c4Model (Msg.pasteText ['x', 'y'])).map
          (fun p => (p.1.value, p.1.col, lengthM p.1)) =
        some (some [['a', 'x', 'y', goNul, goNul, goNul, goNul],
          [], [], [], []], 3, 7) := by
  constructor
  · rfl
  · decide

end Textinput

namespace Textinput

/-! ## Claim C8: Value trims both ends, not only trailing whitespace -/

/-- The spec's reading of Value: the rows joined by newlines (a newline
between adjacent rows, none at either end). -/
def specJoin : List (List Char) → List Char
  | [] => []
  | [r] => r
  | r :: rest => r ++ '\n' :: specJoin rest

/-- A model holding the claim's example row "  foo". -/
def c8Model : Model :=
  { newM 1 with value := some [[' ', ' ', 'f', 'o', 'o']] }

/-- C8 counterexample: the buffer whose single row is "  foo" yields the
value "foo", not "  foo" — strings.TrimSpace removes the leading
whitespace the claim says is preserved. -/
theorem c8_leading_whitespace_not_preserved :
    rowsD c8Model = [[' ', ' ', 'f', 'o', 'o']] ∧
      valueM c8Model = ['f', 'o', 'o'] := by
  constructor
  · rfl
  · decide

theorem foldl_join_shift (rows : List (List Char)) (acc : List Char) :
    rows.foldl (fun a r => a ++ r ++ ['\n']) acc =
      acc ++ rows.foldl (fun a r => a ++ r ++ ['\n']) [] := by
  induction rows generalizing acc with
  | nil => simp
  | cons r rest ih =>
    simp only [List.foldl_cons]
    rw [ih (acc ++ r ++ ['\n']), ih ([] ++ r ++ ['\n'])]
    simp

theorem foldl_join_eq_specJoin :
    ∀ rows : List (List Char), rows ≠ [] →
      rows.foldl (fun a r => a ++ r ++ ['\n']) [] = specJoin rows ++ ['\n']
  | [r], _ => by simp [specJoin]
  | r :: r2 :: rest2, _ => by
    have ih := foldl_join_eq_specJoin (r2 :: rest2) (by simp)
    rw [show (r :: r2 :: rest2).foldl (fun a r => a ++ r ++ ['\n']) [] =
      (r2 :: rest2).foldl (fun a r => a ++ r ++ ['\n']) ([] ++ r ++ ['\n'])
      from rfl]
    rw [foldl_join_shift (r2 :: rest2) ([] ++ r ++ ['\n']), ih]
    simp [specJoin]

theorem isSpace_newline : isSpace '\n' = true := by decide

theorem trimRight_newline (x : List Char) :
    trimRight (x ++ ['\n']) = trimRight x := by
  simp only [trimRight, List.reverse_append, List.reverse_cons,
    List.reverse_nil, List.nil_append, List.cons_append, List.dropWhile_cons,
    isSpace_newline, if_true]

theorem trimSpace_newline (x : List Char) :
    trimSpace (x ++ ['\n']) = trimSpace x := by
  simp only [trimSpace, trimLeft, List.dropWhile_append]
  by_cases h : (List.dropWhile isSpace x).isEmpty = true
  · rw [if_pos h]
    rw [List.isEmpty_iff] at h
    rw [h]
    simp only [List.dropWhile_cons, isSpace_newline, if_true,
      List.dropWhile_nil]
  · rw [if_neg h]
    exact trimRight_newline _

/-- C8 amended: Value() returns the rows joined by newlines with
whitespace trimmed from both ends (so leading whitespace of the first row
is removed, just as trailing whitespace of the last row is). -/
theorem c8_value_is_join_trimmed_both_ends (m : Model) :
    valueM m = trimSpace (specJoin (rowsD m)) := by
  unfold valueM
  cases h : rowsD m with
  | nil => simp [specJoin]
  | cons r rest =>
    rw [foldl_join_eq_specJoin _ (by simp)]
    exact trimSpace_newline _

end Textinput

namespace Textinput

/-! ## Claim C6: stale blink messages -/

/-- A focused blink-mode model whose buffer is still unallocated. -/
def c6Model : Model := { newM 1 with focus := true, LineLimit := 1 }

/-- C6 counterexample: on a focused blink-mode model whose buffer is
still nil, a stale blink message (tag 5 against current tag 0) does leave
the flag alone but does not leave all other state unchanged: Update's
lazy initialization allocates the row buffer before the staleness check
runs, so value changes from none to one empty row. -/
theorem c6_stale_blink_still_initializes :
    c6Model.focus = true ∧ c6Model.cursorMode = CursorMode.blinkMode ∧
      c6Model.blinkTag = 0 ∧ c6Model.value = none ∧
      (updateF 20 c6Model (Msg.blinkTimer 1 5)).map
          (fun p => (p.1.value, p.1.blink, p.2)) =
        some (some [[]], true, Cmd.nilCmd) := by
  refine ⟨rfl, rfl, rfl, rfl, ?_⟩
  decide

/-- C6 amended: for every focused blink-mode model whose buffer is
already allocated, a blink message whose (id, tag) does not match the
model's current (id, blinkTag) is discarded as a complete no-op (same
model, nil command); a matching message toggles the blink flag (and bumps
the tag while scheduling the next timer).  On a model whose buffer is
still nil, the only other effect of either message is the one-time lazy
allocation of the empty row buffer. -/
theorem c6_stale_blink_discarded (f : Nat) (m : Model)
    (rows : List (List Char)) (mid mtag : Int)
    (hf : m.focus = true) (hc : m.cursorMode = CursorMode.blinkMode)
    (hv : m.value = some rows) :
    (mid ≠ m.id ∨ mtag ≠ m.blinkTag →
      updateF f m (Msg.blinkTimer mid mtag) = some (m, Cmd.nilCmd)) ∧
    (mid = m.id → mtag = m.blinkTag →
      updateF f m (Msg.blinkTimer mid mtag) =
        some ({ m with blink := ¬ m.blink, blinkTag := m.blinkTag + 1 },
          Cmd.blinkCmd m.id (m.blinkTag + 1))) := by
  constructor
  · intro hst
    simp [updateF, hf, hv, hc, hst]
  · intro hid htag
    subst hid
    subst htag
    simp [updateF, hf, hv, hc, blinkCmdM]

/-- C6 witness: a concrete focused blink-mode model with an allocated
buffer discards a mismatched tag unchanged and toggles on a match. -/
def c6W : Model :=
  { newM 1 with focus := true, LineLimit := 1, value := some [[]] }

theorem c6_stale_blink_discarded_witness :
    updateF 3 c6W (Msg.blinkTimer 1 7) = some (c6W, Cmd.nilCmd) ∧
      updateF 3 c6W (Msg.blinkTimer 1 0) =
        some ({ c6W with blink := ¬ c6W.blink, blinkTag := c6W.blinkTag + 1 },
          Cmd.blinkCmd c6W.id (c6W.blinkTag + 1)) :=
  ⟨(c6_stale_blink_discarded 3 c6W [[]] 1 7 rfl rfl rfl).1 (by decide),
   (c6_stale_blink_discarded 3 c6W [[]] 1 0 rfl rfl rfl).2 rfl rfl⟩

end Textinput

namespace Textinput

/-! ## Access-primitive lemmas -/

theorem gget_eq_some {α : Type} {l : List α} {i : Int} {a : α} :
    gget l i = some a ↔ 0 ≤ i ∧ ∃ h : i.toNat < l.length, l.get ⟨i.toNat, h⟩ = a := by
  unfold gget
  split
  · next hi =>
    simp only [List.getElem?_eq_some_iff, hi, true_and]
    constructor
    · rintro ⟨h, rfl⟩
      exact ⟨h, rfl⟩
    · rintro ⟨h, rfl⟩
      exact ⟨h, rfl⟩
  · next hi =>
    constructor
    · intro h
      exact Option.noConfusion h
    · rintro ⟨h0, _⟩
      exact absurd h0 hi

theorem gget_getD {α : Type} {l : List α} {i : Int} (d : α)
    (h0 : 0 ≤ i) (h1 : i < glen l) :
    gget l i = some (l.getD i.toNat d) := by
  unfold gget
  rw [if_pos h0]
  have hlt : i.toNat < l.length := by
    unfold glen at h1
    omega
  rw [List.getElem?_eq_getElem hlt, List.getD_eq_getElem l d hlt]

theorem gget_isSome {α : Type} {l : List α} {i : Int} {a : α}
    (h : gget l i = some a) : 0 ≤ i ∧ i < glen l := by
  rw [gget_eq_some] at h
  obtain ⟨h0, hlt, _⟩ := h
  unfold glen
  omega

theorem gset_eq_some {α : Type} {l l' : List α} {i : Int} {a : α}
    (h : gset l i a = some l') :
    0 ≤ i ∧ i < glen l ∧ l' = l.set i.toNat a := by
  unfold gset at h
  split at h
  · next hc =>
    simp only [Option.some_inj] at h
    exact ⟨hc.1, hc.2, h.symm⟩
  · exact Option.noConfusion h

theorem gset_some {α : Type} {l : List α} {i : Int} {a : α}
    (h0 : 0 ≤ i) (h1 : i < glen l) :
    gset l i a = some (l.set i.toNat a) := by
  unfold gset
  rw [if_pos ⟨h0, h1⟩]

/-! ## Facts about the wrapping pass -/

/-- Every row except the last fits in w characters. -/
def rowsFitB (w : Int) : List (List Char) → Bool
  | [] => true
  | [_] => true
  | r :: rest => decide (glen r ≤ w) && rowsFitB w rest

theorem wrapPassF_id (w : Int) (hw : 0 ≤ w) :
    ∀ (fuel : Nat) (rows : List (List Char)),
      rows.length ≤ fuel + 1 → rowsFitB w rows = true →
      wrapPassF fuel w rows = some rows := by
  intro fuel
  induction fuel with
  | zero =>
    intro rows hlen _
    match rows with
    | [] => rfl
    | [r] => rfl
    | r :: r2 :: rest => simp at hlen
  | succ f ih =>
    intro rows hlen hfit
    match rows with
    | [] => rfl
    | [r] => rfl
    | r :: r2 :: rest =>
      simp only [rowsFitB, Bool.and_eq_true, decide_eq_true_eq] at hfit
      obtain ⟨hr, hrest⟩ := hfit
      have hlen' : (r2 :: rest).length ≤ f + 1 := by
        simp only [List.length_cons] at hlen ⊢
        omega
      simp only [wrapPassF]
      by_cases hge : glen r ≥ w
      · have heq : glen r = w := le_antisymm hr hge
        rw [if_pos hge]
        have hdrop : r.drop w.toNat = [] := by
          apply List.drop_eq_nil_of_le
          unfold glen at heq
          omega
        have htake : r.take w.toNat = r := by
          apply List.take_of_length_le
          unfold glen at heq
          omega
        rw [hdrop, htake]
        simp only [List.nil_append]
        simp only [gguard, if_pos hw, Option.some_bind]
        rw [ih (r2 :: rest) hlen' hrest]
        rfl
      · rw [if_neg hge]
        rw [ih (r2 :: rest) hlen' hrest]
        rfl

theorem wrapPass_id {w : Int} {rows : List (List Char)} (hw : 0 ≤ w)
    (hfit : rowsFitB w rows = true) :
    wrapPass w rows = some rows := by
  unfold wrapPass
  exact wrapPassF_id w hw rows.length rows (Nat.le_succ _) hfit

theorem wrapPassF_length (w : Int) :
    ∀ (fuel : Nat) (rows rows' : List (List Char)),
      wrapPassF fuel w rows = some rows' → rows'.length = rows.length := by
  intro fuel
  induction fuel with
  | zero =>
    intro rows rows' h
    match rows with
    | [] => cases h; rfl
    | [r] => cases h; rfl
    | r :: r2 :: rest => exact Option.noConfusion h
  | succ f ih =>
    intro rows rows' h
    match rows with
    | [] => cases h; rfl
    | [r] => cases h; rfl
    | r :: r2 :: rest =>
      simp only [wrapPassF, gguard, Option.bind_eq_bind, Option.pure_def] at h
      split at h
      · split at h
        · simp only [Option.some_bind, Option.bind_eq_some, Option.some_inj] at h
          obtain ⟨rest', hrec, hrows'⟩ := h
          subst hrows'
          have := ih _ _ hrec
          simp only [List.length_cons] at this ⊢
          omega
        · exact Option.noConfusion h
      · simp only [Option.bind_eq_some, Option.some_inj] at h
        obtain ⟨rest', hrec, hrows'⟩ := h
        subst hrows'
        have := ih _ _ hrec
        simp only [List.length_cons] at this ⊢
        omega

end Textinput

namespace Textinput

theorem wrapPassF_keep (w : Int) (hw : 0 ≤ w) :
    ∀ (fuel : Nat) (rows rows' : List (List Char)),
      wrapPassF fuel w rows = some rows' →
      ∀ i : Nat, min (glen (rows.getD i [])) w ≤ glen (rows'.getD i []) := by
  intro fuel
  induction fuel with
  | zero =>
    intro rows rows' h i
    match rows with
    | [] => cases h; simp [glen]
    | [r] => cases h; exact min_le_of_left_le le_rfl
    | r :: r2 :: rest => exact Option.noConfusion h
  | succ f ih =>
    intro rows rows' h i
    match rows with
    | [] => cases h; simp [glen]
    | [r] => cases h; exact min_le_of_left_le le_rfl
    | r :: r2 :: rest =>
      simp only [wrapPassF, gguard, Option.bind_eq_bind, Option.pure_def] at h
      split at h
      · next hge =>
        simp only [Option.some_bind, Option.bind_eq_some, Option.some_inj] at h
        obtain ⟨rest', hrec, hrows'⟩ := h
        subst hrows'
        match i with
        | 0 =>
          simp only [List.getD_cons_zero]
          have : glen (r.take w.toNat) = w := by
            simp only [glen, List.length_take]
            unfold glen at hge
            omega
          rw [this]
          exact min_le_right _ _
        | i + 1 =>
          simp only [List.getD_cons_succ]
          have step := ih _ _ hrec i
          refine le_trans (min_le_min_right w ?_) step
          match i with
          | 0 =>
            simp only [List.getD_cons_zero, glen, List.length_append]
            omega
          | i + 1 => simp only [List.getD_cons_succ]; exact le_rfl
      · next hge =>
        simp only [Option.bind_eq_some, Option.some_inj] at h
        obtain ⟨rest', hrec, hrows'⟩ := h
        subst hrows'
        match i with
        | 0 =>
          simp only [List.getD_cons_zero]
          exact min_le_of_left_le le_rfl
        | i + 1 =>
          simp only [List.getD_cons_succ]
          exact ih _ _ hrec i

theorem wrapPassF_spill (w : Int) (hw : 0 ≤ w) :
    ∀ (fuel : Nat) (rows rows' : List (List Char)),
      wrapPassF fuel w rows = some rows' →
      ∀ i : Nat, i + 1 < rows.length →
        min (glen (rows.getD i []) - w) w ≤ glen (rows'.getD (i + 1) []) := by
  intro fuel
  induction fuel with
  | zero =>
    intro rows rows' h i hi
    match rows with
    | [] => simp at hi
    | [r] => simp at hi
    | r :: r2 :: rest => exact Option.noConfusion h
  | succ f ih =>
    intro rows rows' h i hi
    match rows with
    | [] => simp at hi
    | [r] => simp at hi
    | r :: r2 :: rest =>
      simp only [wrapPassF, gguard, Option.bind_eq_bind, Option.pure_def] at h
      split at h
      · next hge =>
        simp only [Option.some_bind, Option.bind_eq_some, Option.some_inj] at h
        obtain ⟨rest', hrec, hrows'⟩ := h
        subst hrows'
        match i with
        | 0 =>
          simp only [List.getD_cons_zero, List.getD_cons_succ]
          have hkeep := wrapPassF_keep w hw f _ _ hrec 0
          simp only [List.getD_cons_zero] at hkeep
          refine le_trans (min_le_min_right w ?_) hkeep
          simp only [glen, List.length_append, List.length_drop]
          unfold glen at hge
          omega
        | i + 1 =>
          simp only [List.getD_cons_succ]
          have hlen : i + 1 < ((r.drop w.toNat ++ r2) :: rest).length := by
            simp only [List.length_cons] at hi ⊢
            omega
          have step := ih _ _ hrec i hlen
          refine le_trans (min_le_min_right w (sub_le_sub_right ?_ w)) step
          match i with
          | 0 =>
            simp only [List.getD_cons_zero, glen, List.length_append]
            omega
          | i + 1 => simp only [List.getD_cons_succ]; exact le_rfl
      · next hge =>
        simp only [Option.bind_eq_some, Option.some_inj] at h
        obtain ⟨rest', hrec, hrows'⟩ := h
        subst hrows'
        match i with
        | 0 =>
          simp only [List.getD_cons_zero, List.getD_cons_succ]
          have h1 : glen r - w ≤ 0 := by omega
          have h2 : (0 : Int) ≤ glen (rest'.getD 0 []) := by
            simp only [glen]
            omega
          exact le_trans (min_le_left _ _) (le_trans h1 h2)
        | i + 1 =>
          simp only [List.getD_cons_succ]
          have hlen : i + 1 < (r2 :: rest).length := by
            simp only [List.length_cons] at hi ⊢
            omega
          exact ih _ _ hrec i hlen

theorem wrapPassF_last (w : Int) :
    ∀ (fuel : Nat) (rows rows' : List (List Char)),
      wrapPassF fuel w rows = some rows' →
      ∀ i : Nat, i + 1 = rows.length →
        glen (rows.getD i []) ≤ glen (rows'.getD i []) := by
  intro fuel
  induction fuel with
  | zero =>
    intro rows rows' h i hi
    match rows with
    | [] => simp at hi
    | [r] => cases h; exact le_rfl
    | r :: r2 :: rest => exact Option.noConfusion h
  | succ f ih =>
    intro rows rows' h i hi
    match rows with
    | [] => simp at hi
    | [r] => cases h; exact le_rfl
    | r :: r2 :: rest =>
      simp only [wrapPassF, gguard, Option.bind_eq_bind, Option.pure_def] at h
      have hi' : i = rest.length + 1 := by
        simp only [List.length_cons] at hi
        omega
      subst hi'
      split at h
      · next hge =>
        split at h
        · simp only [Option.some_bind, Option.bind_eq_some, Option.some_inj] at h
          obtain ⟨rest', hrec, hrows'⟩ := h
          subst hrows'
          simp only [List.getD_cons_succ]
          have step := ih _ _ hrec rest.length (by simp)
          refine le_trans ?_ step
          match rest with
          | [] =>
            simp only [List.length_nil, List.getD_cons_zero, glen,
              List.length_append]
            omega
          | r3 :: rest3 =>
            simp only [List.length_cons, List.getD_cons_succ]
            exact le_rfl
        · exact Option.noConfusion h
      · next hge =>
        simp only [Option.bind_eq_some, Option.some_inj] at h
        obtain ⟨rest', hrec, hrows'⟩ := h
        subst hrows'
        simp only [List.getD_cons_succ]
        exact ih _ _ hrec rest.length (by simp)

end Textinput

namespace Textinput

/-! ## Invariants preserved by the overflow pass -/

/-- The cursor column is inside its row. -/
def ColInv (m : Model) : Prop :=
  0 ≤ m.col ∧ ∃ r, gget (rowsD m) m.row = some r ∧ m.col ≤ glen r

/-- Structural facts holding in every reachable state: the buffer is
allocated with exactly LineLimit rows, the cursor row is in range, and a
multi-line input has a positive width. -/
def Pre (m : Model) : Prop :=
  (∃ rows, m.value = some rows) ∧ glen (rowsD m) = m.LineLimit ∧
    0 ≤ m.row ∧ m.row < m.LineLimit ∧ (1 < m.LineLimit → 1 ≤ m.Width)

/-- The configuration fields no editing operation writes. -/
def SameCfg (m m' : Model) : Prop :=
  m'.LineLimit = m.LineLimit ∧ m'.Width = m.Width ∧
    m'.CharLimit = m.CharLimit ∧ m'.Height = m.Height ∧
    m'.echoMode = m.echoMode ∧ m'.focus = m.focus ∧
    m'.cursorMode = m.cursorMode

theorem sameCfg_refl (m : Model) : SameCfg m m :=
  ⟨rfl, rfl, rfl, rfl, rfl, rfl, rfl⟩

theorem sameCfg_trans {m1 m2 m3 : Model} (h1 : SameCfg m1 m2)
    (h2 : SameCfg m2 m3) : SameCfg m1 m3 := by
  obtain ⟨a1, a2, a3, a4, a5, a6, a7⟩ := h1
  obtain ⟨b1, b2, b3, b4, b5, b6, b7⟩ := h2
  exact ⟨b1.trans a1, b2.trans a2, b3.trans a3, b4.trans a4, b5.trans a5,
    b6.trans a6, b7.trans a7⟩

theorem clamp_lower (v low high : Int) (h : low ≤ high) :
    low ≤ clamp v low high := by
  unfold clamp gmin gmax
  repeat' split
  all_goals omega

theorem clamp_upper (v low high : Int) (h : low ≤ high) :
    clamp v low high ≤ high := by
  unfold clamp gmin gmax
  repeat' split
  all_goals omega

theorem clamp_of_mem (v low high : Int) (h1 : low ≤ v) (h2 : v ≤ high) :
    clamp v low high = v := by
  unfold clamp gmin gmax
  repeat' split
  all_goals omega

/-- The horizontal overflow pass only writes the two offset fields. -/
theorem horizontal_shape (lf : Nat) (m m' : Model)
    (h : handleHorizontalOverflowM lf m = some m') :
    ∃ a b, m' = { m with offset := a, offsetRight := b } := by
  unfold handleHorizontalOverflowM at h
  simp only [Option.bind_eq_bind, Option.bind_eq_some, Option.pure_def,
    Option.some_inj] at h
  obtain ⟨rows, hrows, h⟩ := h
  obtain ⟨r, hr, h⟩ := h
  split at h
  · simp only [Option.some_inj] at h
    exact ⟨0, glen r, h.symm⟩
  · split at h
    · simp only [Option.bind_eq_bind, Option.bind_eq_some, Option.pure_def,
        Option.some_inj] at h
      obtain ⟨runes, hrunes, h⟩ := h
      obtain ⟨i, hi, h⟩ := h
      exact ⟨m.col, m.col + i, h.symm⟩
    · split at h
      · simp only [Option.bind_eq_bind, Option.bind_eq_some, Option.pure_def,
          Option.some_inj] at h
        obtain ⟨runes, hrunes, h⟩ := h
        obtain ⟨i, hi, h⟩ := h
        exact ⟨m.col - (glen runes - 1 - i), m.col, h.symm⟩
      · simp only [Option.some_inj] at h
        exact ⟨m.offset, gmin m.offsetRight (glen r), h.symm⟩

/-- When the cursor-advance condition is false, the multi-line overflow
pass is exactly the wrapping pass on the buffer. -/
theorem overflow_nomove (f : Nat) (m : Model) (rows : List (List Char))
    (hLL : 1 < m.LineLimit) (hv : m.value = some rows)
    (hbr : ¬(m.Width < m.col ∧ m.row ≠ m.LineLimit - 1)) :
    handleOverflowF (f + 1) m =
      (wrapPass m.Width rows).map (fun rows' => { m with value := some rows' }) := by
  simp only [handleOverflowF, hv]
  rw [if_pos hLL]
  cases hwp : wrapPass m.Width rows with
  | none => simp [Option.bind_eq_bind]
  | some rows' =>
    simp only [Option.bind_eq_bind, Option.some_bind, Option.pure_def,
      Option.map_some]
    split
    · next hc => exact absurd hc (by simpa using hbr)
    · rfl

end Textinput

namespace Textinput

theorem glen_nonneg {α : Type} (l : List α) : 0 ≤ glen l :=
  Int.natCast_nonneg _

theorem lineDown_lt {m : Model} (h : m.row < m.LineLimit - 1) :
    lineDown m = { m with
      row := m.row + 1,
      viewport := { m.viewport with
        yOffset := m.row + 1 - Int.tdiv m.Height 2 } } := by
  unfold lineDown setYOffset
  rw [if_pos h]

/-- The cursor-advance block of handleVerticalOverflow (lineDown followed
by the inlined cursorStart and the column bump), named so that the
overflow equations can be stated compositionally. -/
def overflowAdvance (f : Nat) (m : Model) : Option Model := do
  let m := lineDown m
  let rows ← m.value
  let r ← gget rows m.row
  let m := { m with col := clamp 0 0 (glen r) }
  let m ← handleOverflowF f m
  let m := { m with blink := decide (m.cursorMode = CursorMode.hideMode) }
  pure { m with col := m.col + 1 }

/-- Unfolding equation of the multi-line overflow pass. -/
theorem handleOverflow_succ_multi (f : Nat) (m : Model)
    (rows : List (List Char)) (hv : m.value = some rows)
    (hLL : 1 < m.LineLimit) :
    handleOverflowF (f + 1) m =
      (wrapPass m.Width rows).bind (fun rows' =>
        if m.col > m.Width ∧ m.row ≠ m.LineLimit - 1 then
          overflowAdvance f { m with value := some rows' }
        else some { m with value := some rows' }) := by
  simp only [handleOverflowF, overflowAdvance, hv]
  rw [if_pos hLL]
  cases hwp : wrapPass m.Width rows with
  | none => rfl
  | some rows' => rfl

/-- A successful overflow pass whose cursor-advance condition is false is
the wrapping pass. -/
theorem overflow_nomove_some {f : Nat} {mm m4 : Model}
    {rs : List (List Char)} (h : handleOverflowF (f + 1) mm = some m4)
    (hv : mm.value = some rs) (hLL : 1 < mm.LineLimit)
    (hbr : ¬(mm.Width < mm.col ∧ mm.row ≠ mm.LineLimit - 1)) :
    ∃ rs', wrapPass mm.Width rs = some rs' ∧
      m4 = { mm with value := some rs' } := by
  rw [overflow_nomove f mm rs hLL hv hbr] at h
  cases hwp : wrapPass mm.Width rs with
  | none => rw [hwp] at h; exact Option.noConfusion h
  | some rs' =>
    rw [hwp] at h
    exact ⟨rs', rfl, (Option.some_inj.mp h).symm⟩

/-- The cursor-advance block preserves the invariants, provided the row
below the cursor is nonempty (which the spill bound supplies). -/
theorem overflowAdvance_inv (f : Nat) (m m' : Model)
    (rows : List (List Char)) (hv : m.value = some rows)
    (hlen : glen rows = m.LineLimit) (hr0 : 0 ≤ m.row)
    (hrlt : m.row < m.LineLimit - 1) (hW1 : 1 ≤ m.Width)
    (hLL : 1 < m.LineLimit)
    (hbelow : 1 ≤ glen (rows.getD (m.row.toNat + 1) []))
    (h : overflowAdvance f m = some m') :
    Pre m' ∧ ColInv m' ∧ SameCfg m m' := by
  unfold overflowAdvance at h
  rw [lineDown_lt hrlt] at h
  simp only [Option.bind_eq_bind, Option.pure_def] at h
  rw [show ({ m with
    row := m.row + 1,
    viewport := { m.viewport with
      yOffset := m.row + 1 - Int.tdiv m.Height 2 } } : Model).value =
    m.value from rfl, hv] at h
  simp only [Option.some_bind] at h
  rw [show (gget rows ({ m with
    row := m.row + 1,
    viewport := { m.viewport with
      yOffset := m.row + 1 - Int.tdiv m.Height 2 } } : Model).row) =
    gget rows (m.row + 1) from rfl] at h
  rw [gget_getD [] (by omega) (by omega)] at h
  simp only [Option.some_bind] at h
  rw [clamp_of_mem 0 0 _ le_rfl (glen_nonneg _)] at h
  rw [Option.bind_eq_some] at h
  obtain ⟨m4, hrec, hm'⟩ := h
  simp only [Option.some_inj] at hm'
  match f with
  | 0 => exact Option.noConfusion hrec
  | f2 + 1 =>
    obtain ⟨rows'', hwp, hm4⟩ := overflow_nomove_some hrec rfl hLL (by
      intro hcontra
      have hx : m.Width < 0 := hcontra.1
      omega)
    subst hm4
    subst hm'
    have hlen3 : rows''.length = rows.length :=
      wrapPassF_length m.Width rows.length rows rows'' hwp
    have hlenZ : ((rows.length : Int)) = m.LineLimit := hlen
    have hkeep := wrapPassF_keep m.Width (by omega) rows.length
      rows rows'' hwp (m.row.toNat + 1)
    have hget2 : 1 ≤ glen (rows''.getD (m.row.toNat + 1) []) := by
      omega
    refine ⟨⟨⟨rows'', rfl⟩, ?_, ?_, ?_, fun _ => hW1⟩,
      ⟨?_, rows''.getD (m.row.toNat + 1) [], ?_, ?_⟩,
      ⟨rfl, rfl, rfl, rfl, rfl, rfl, rfl⟩⟩
    · show glen (Option.getD (some rows'') []) = m.LineLimit
      simp only [Option.getD_some, glen, hlen3]
      rw [show ((rows.length : Int) = m.LineLimit) from hlen]
    · show (0 : Int) ≤ m.row + 1
      omega
    · show m.row + 1 < m.LineLimit
      omega
    · show (0 : Int) ≤ (0 : Int) + 1
      omega
    · show gget (Option.getD (some rows'') []) (m.row + 1) = _
      simp only [Option.getD_some]
      have hn : (m.row + 1).toNat = m.row.toNat + 1 := by omega
      rw [show gget rows'' (m.row + 1) =
        some (rows''.getD (m.row + 1).toNat []) from
        gget_getD [] (by omega) (by
          simp only [glen, hlen3]
          omega), hn]
    · show (0 : Int) + 1 ≤ _
      omega

end Textinput

namespace Textinput

/-- The overflow pass preserves the structural invariants and the cursor
column invariant, in any mode. -/
theorem overflow_colInv (f : Nat) (m m' : Model) (hpre : Pre m)
    (hci : ColInv m) (h : handleOverflowF f m = some m') :
    Pre m' ∧ ColInv m' ∧ SameCfg m m' := by
  obtain ⟨⟨rows, hv⟩, hlen, hr0, hr1, hWmk⟩ := hpre
  have hrowsD : rowsD m = rows := by simp [rowsD, hv]
  rw [hrowsD] at hlen
  match f with
  | 0 => exact Option.noConfusion h
  | f + 1 =>
    by_cases hLL : 1 < m.LineLimit
    · -- multi-line
      have hW1 : 1 ≤ m.Width := hWmk hLL
      obtain ⟨hc0, r, hgr, hcr⟩ := hci
      rw [hrowsD] at hgr
      have hreq : r = rows.getD m.row.toNat [] := by
        have hx := gget_getD (l := rows) (i := m.row) [] hr0 (by omega)
        rw [hgr] at hx
        exact Option.some_inj.mp hx
      rw [handleOverflow_succ_multi f m rows hv hLL] at h
      cases hwp : wrapPass m.Width rows with
      | none => rw [hwp] at h; exact Option.noConfusion h
      | some rows' =>
        rw [hwp] at h
        simp only [Option.some_bind] at h
        have hlen2 : rows'.length = rows.length :=
          wrapPassF_length m.Width rows.length rows rows' hwp
        have hlenZ : ((rows.length : Int)) = m.LineLimit := hlen
        split at h
        · next hbr =>
          have hrlt : m.row < m.LineLimit - 1 := by
            have := hbr.2
            omega
          have hspill := wrapPassF_spill m.Width (by omega) rows.length
            rows rows' hwp m.row.toNat (by omega)
          have hbelow : 1 ≤ glen (rows'.getD (m.row.toNat + 1) []) := by
            rw [← hreq] at hspill
            have hgt : m.Width < m.col := hbr.1
            omega
          have hinv := overflowAdvance_inv f
            ({ m with value := some rows' }) m' rows' rfl
            (by
              show glen rows' = m.LineLimit
              simp only [glen, hlen2]
              exact hlenZ)
            hr0 hrlt hW1 hLL hbelow h
          refine ⟨hinv.1, hinv.2.1, sameCfg_trans ?_ hinv.2.2⟩
          exact ⟨rfl, rfl, rfl, rfl, rfl, rfl, rfl⟩
        · next hbr =>
          rw [Option.some_inj] at h
          subst h
          have hcol : m.col ≤ glen (rows'.getD m.row.toNat []) := by
            by_cases hcw : m.col ≤ m.Width
            · have hk := wrapPassF_keep m.Width (by omega) rows.length
                rows rows' hwp m.row.toNat
              rw [← hreq] at hk
              omega
            · have hrlast : m.row = m.LineLimit - 1 := by
                by_contra hne
                exact hbr ⟨by omega, hne⟩
              have hlast : m.row.toNat + 1 = rows.length := by omega
              have hl := wrapPassF_last m.Width rows.length rows rows' hwp
                m.row.toNat hlast
              rw [← hreq] at hl
              omega
          refine ⟨⟨⟨rows', rfl⟩, ?_, hr0, hr1, hWmk⟩,
            ⟨hc0, rows'.getD m.row.toNat [], ?_, hcol⟩,
            ⟨rfl, rfl, rfl, rfl, rfl, rfl, rfl⟩⟩
          · show glen (Option.getD (some rows') []) = m.LineLimit
            simp only [Option.getD_some, glen, hlen2]
            exact hlenZ
          · show gget (Option.getD (some rows') []) m.row = _
            simp only [Option.getD_some]
            apply gget_getD [] hr0
            simp only [glen, hlen2]
            omega
    · -- single line: the horizontal pass writes only the offsets
      have hh : handleHorizontalOverflowM (f + 1) m = some m' := by
        have hx : ¬ m.LineLimit > 1 := by omega
        simpa only [handleOverflowF, if_neg hx] using h
      obtain ⟨a, b, rfl⟩ := horizontal_shape _ _ _ hh
      refine ⟨⟨⟨rows, hv⟩, ?_, hr0, hr1, hWmk⟩, ⟨hci.1, hci.2⟩,
        ⟨rfl, rfl, rfl, rfl, rfl, rfl, rfl⟩⟩
      show glen (rowsD m) = m.LineLimit
      rw [hrowsD]
      exact hlen

end Textinput

namespace Textinput

theorem gget_gset_self {α : Type} {l l' : List α} {i : Int} {a : α}
    (h : gset l i a = some l') : gget l' i = some a := by
  obtain ⟨h0, h1, rfl⟩ := gset_eq_some h
  rw [gget_getD a h0 (by simp only [glen, List.length_set]; exact h1)]
  congr 1
  rw [List.getD_eq_getElem _ a (by
    simp only [List.length_set]
    unfold glen at h1
    omega)]
  rw [List.getElem_set]
  simp

theorem gget_gset_other {α : Type} {l l' : List α} {i j : Int} {a : α}
    (h : gset l i a = some l') (hne : i ≠ j) : gget l' j = gget l j := by
  obtain ⟨h0, h1, rfl⟩ := gset_eq_some h
  unfold gget
  split
  · next hj =>
    rw [List.getElem?_set]
    rw [if_neg]
    intro hc
    apply hne
    omega
  · rfl

/-- Invariant bundle carried through every editing step. -/
def Inv (m : Model) : Prop := Pre m ∧ ColInv m

/-- setCursor establishes the column invariant from any state satisfying
the structural invariants. -/
theorem setCursor_inv (f : Nat) (m m' : Model) (c : Int) (b : Bool)
    (hpre : Pre m) (h : setCursorF f m c = some (m', b)) :
    Pre m' ∧ ColInv m' ∧ SameCfg m m' := by
  unfold setCursorF at h
  simp only [Option.bind_eq_bind, Option.bind_eq_some, Option.pure_def,
    Option.some_inj, Prod.mk.injEq] at h
  obtain ⟨rows, hv, r, hgr, m2, hov, hout, _⟩ := h
  obtain ⟨⟨rows0, hv0⟩, hlen, hr0, hr1, hW⟩ := hpre
  have hci1 : ColInv { m with col := clamp c 0 (glen r) } := by
    refine ⟨clamp_lower c 0 (glen r) (glen_nonneg r), r, ?_,
      clamp_upper c 0 (glen r) (glen_nonneg r)⟩
    show gget (rowsD m) m.row = some r
    simp only [rowsD, hv, Option.getD_some]
    exact hgr
  have hpre1 : Pre { m with col := clamp c 0 (glen r) } := by
    exact ⟨⟨rows0, hv0⟩, hlen, hr0, hr1, hW⟩
  have hc := overflow_colInv f _ m2 hpre1 hci1 hov
  subst hout
  refine ⟨?_, ?_, ?_⟩
  · exact ⟨hc.1.1, hc.1.2.1, hc.1.2.2.1, hc.1.2.2.2.1, hc.1.2.2.2.2⟩
  · exact ⟨hc.2.1.1, hc.2.1.2⟩
  · exact sameCfg_trans (⟨rfl, rfl, rfl, rfl, rfl, rfl, rfl⟩ :
      SameCfg m { m with col := clamp c 0 (glen r) }) hc.2.2

/-- handleColumnBoundaries clamps the column, touching nothing else. -/
theorem hcb_inv (m m' : Model) (hpre : Pre m)
    (h : handleColumnBoundariesM m = some m') :
    Pre m' ∧ ColInv m' ∧ SameCfg m m' ∧ m'.value = m.value ∧
      m'.row = m.row := by
  unfold handleColumnBoundariesM at h
  simp only [Option.bind_eq_bind, Option.bind_eq_some, Option.pure_def,
    Option.some_inj] at h
  obtain ⟨rows, hv, r, hgr, hout⟩ := h
  obtain ⟨⟨rows0, hv0⟩, hlen, hr0, hr1, hW⟩ := hpre
  subst hout
  refine ⟨⟨⟨rows, hv⟩, hlen, hr0, hr1, hW⟩,
    ⟨clamp_lower _ 0 (glen r) (glen_nonneg r), r, ?_,
      clamp_upper _ 0 (glen r) (glen_nonneg r)⟩,
    ⟨rfl, rfl, rfl, rfl, rfl, rfl, rfl⟩, rfl, rfl⟩
  show gget (rowsD m) m.row = some r
  simp only [rowsD, hv, Option.getD_some]
  exact hgr

end Textinput

namespace Textinput

theorem lineDown_value (m : Model) : (lineDown m).value = m.value := by
  unfold lineDown setYOffset
  split <;> rfl

theorem lineUp_value (m : Model) : (lineUp m).value = m.value := by
  unfold lineUp setYOffset
  split <;> rfl

theorem lineDown_pre (m : Model) (h : Pre m) : Pre (lineDown m) := by
  obtain ⟨⟨rows, hv⟩, hlen, hr0, hr1, hW⟩ := h
  unfold lineDown setYOffset
  split
  · next hlt =>
    exact ⟨⟨rows, hv⟩, hlen,
      by show (0 : Int) ≤ m.row + 1; omega,
      by show m.row + 1 < m.LineLimit; omega, hW⟩
  · exact ⟨⟨rows, hv⟩, hlen, hr0, hr1, hW⟩

theorem lineUp_pre (m : Model) (h : Pre m) : Pre (lineUp m) := by
  obtain ⟨⟨rows, hv⟩, hlen, hr0, hr1, hW⟩ := h
  unfold lineUp setYOffset
  split
  · next hgt =>
    exact ⟨⟨rows, hv⟩, hlen,
      by show (0 : Int) ≤ m.row - 1; omega,
      by show m.row - 1 < m.LineLimit; omega, hW⟩
  · exact ⟨⟨rows, hv⟩, hlen, hr0, hr1, hW⟩

theorem lineDown_cfg (m : Model) : SameCfg m (lineDown m) := by
  unfold lineDown setYOffset
  split <;> exact ⟨rfl, rfl, rfl, rfl, rfl, rfl, rfl⟩

theorem lineUp_cfg (m : Model) : SameCfg m (lineUp m) := by
  unfold lineUp setYOffset
  split <;> exact ⟨rfl, rfl, rfl, rfl, rfl, rfl, rfl⟩

theorem shiftUpLoop_facts :
    ∀ (fuel : Nat) (rows rows' : List (List Char)) (start stop : Int),
      shiftUpLoop fuel rows start stop = some rows' →
      rows'.length = rows.length ∧
        ∀ j : Int, j < start → gget rows' j = gget rows j := by
  intro fuel
  induction fuel with
  | zero =>
    intro rows rows' start stop h
    unfold shiftUpLoop at h
    split at h
    · exact Option.noConfusion h
    · rw [Option.some_inj] at h
      subst h
      exact ⟨rfl, fun _ _ => rfl⟩
  | succ f ih =>
    intro rows rows' start stop h
    unfold shiftUpLoop at h
    split at h
    · simp only [Option.bind_eq_bind, Option.bind_eq_some] at h
      obtain ⟨x, hx, rows1, hset, hrec⟩ := h
      obtain ⟨hlen1, hkeep1⟩ := ih _ _ _ _ hrec
      obtain ⟨h0, h1, rfl⟩ := gset_eq_some hset
      refine ⟨by rw [hlen1, List.length_set], fun j hj => ?_⟩
      rw [hkeep1 j (by omega)]
      exact gget_gset_other (gset_some h0 h1) (by omega)
    · rw [Option.some_inj] at h
      subst h
      exact ⟨rfl, fun _ _ => rfl⟩

theorem shiftDownLoop_facts :
    ∀ (fuel : Nat) (rows rows' : List (List Char)) (lo hi : Int),
      shiftDownLoop fuel rows lo hi = some rows' →
      rows'.length = rows.length ∧
        ∀ j : Int, j ≤ lo → gget rows' j = gget rows j := by
  intro fuel
  induction fuel with
  | zero =>
    intro rows rows' lo hi h
    unfold shiftDownLoop at h
    split at h
    · exact Option.noConfusion h
    · rw [Option.some_inj] at h
      subst h
      exact ⟨rfl, fun _ _ => rfl⟩
  | succ f ih =>
    intro rows rows' lo hi h
    unfold shiftDownLoop at h
    split at h
    · simp only [Option.bind_eq_bind, Option.bind_eq_some] at h
      obtain ⟨x, hx, rows1, hset, hrec⟩ := h
      obtain ⟨hlen1, hkeep1⟩ := ih _ _ _ _ hrec
      obtain ⟨h0, h1, rfl⟩ := gset_eq_some hset
      refine ⟨by rw [hlen1, List.length_set], fun j hj => ?_⟩
      rw [hkeep1 j hj]
      exact gget_gset_other (gset_some h0 h1) (by omega)
    · rw [Option.some_inj] at h
      subst h
      exact ⟨rfl, fun _ _ => rfl⟩

theorem pasteLoop_length (charLimit col0 : Int) :
    ∀ (cs : List Char) (rows rows' : List (List Char))
      (col avail col' avail' : Int) (row : Int),
      pasteLoop charLimit col0 cs rows col avail row =
        some (rows', col', avail') →
      rows'.length = rows.length := by
  intro cs
  induction cs with
  | nil =>
    intro rows rows' col avail col' avail' row h
    unfold pasteLoop at h
    simp only [Option.some_inj, Prod.mk.injEq] at h
    rw [← h.1]
  | cons c rest ih =>
    intro rows rows' col avail col' avail' row h
    unfold pasteLoop at h
    simp only [Option.bind_eq_bind, Option.bind_eq_some, gguard] at h
    obtain ⟨u, hu, h⟩ := h
    obtain ⟨cur, hcur, rows1, hset, h⟩ := h
    obtain ⟨_, _, rfl⟩ := gset_eq_some hset
    split at h
    · split at h
      · simp only [Option.some_inj, Prod.mk.injEq] at h
        rw [← h.1, List.length_set]
      · have := ih _ _ _ _ _ _ _ h
        rw [this, List.length_set]
    · have := ih _ _ _ _ _ _ _ h
      rw [this, List.length_set]

end Textinput

namespace Textinput

theorem dwlSkipSpaces_inv :
    ∀ (lf f : Nat) (m : Model) (b : Bool) (m' : Model) (b' : Bool),
      Pre m → dwlSkipSpaces lf f m b = some (m', b') →
      Pre m' ∧ SameCfg m m' ∧ (m' = m ∨ ColInv m') := by
  intro lf
  induction lf with
  | zero =>
    intro f m b m' b' _ h
    exact Option.noConfusion h
  | succ lf ih =>
    intro f m b m' b' hpre h
    unfold dwlSkipSpaces at h
    simp only [Option.bind_eq_bind, Option.bind_eq_some, Option.pure_def] at h
    obtain ⟨rows, hv, r, hgr, c, hgc, h⟩ := h
    split at h
    · split at h
      · simp only [Option.pure_def, Option.some_inj, Prod.mk.injEq] at h
        exact ⟨h.1 ▸ hpre, h.1 ▸ sameCfg_refl m, Or.inl h.1.symm⟩
      · simp only [Option.bind_eq_some] at h
        obtain ⟨⟨m1, b1⟩, hsc, hrec⟩ := h
        obtain ⟨hpre1, hci1, hcfg1⟩ := setCursor_inv f m m1 _ b1 hpre hsc
        obtain ⟨hpre', hcfg', hd⟩ := ih f m1 b1 m' b' hpre1 hrec
        refine ⟨hpre', sameCfg_trans hcfg1 hcfg', Or.inr ?_⟩
        cases hd with
        | inl he => exact he ▸ hci1
        | inr hci => exact hci
    · simp only [Option.pure_def, Option.some_inj, Prod.mk.injEq] at h
      exact ⟨h.1 ▸ hpre, h.1 ▸ sameCfg_refl m, Or.inl h.1.symm⟩

theorem dwlSkipWord_inv :
    ∀ (lf f : Nat) (m : Model) (b : Bool) (m' : Model) (b' : Bool),
      Pre m → dwlSkipWord lf f m b = some (m', b') →
      Pre m' ∧ SameCfg m m' ∧ (m' = m ∨ ColInv m') := by
  intro lf
  induction lf with
  | zero =>
    intro f m b m' b' _ h
    exact Option.noConfusion h
  | succ lf ih =>
    intro f m b m' b' hpre h
    unfold dwlSkipWord at h
    split at h
    · simp only [Option.bind_eq_bind, Option.bind_eq_some,
        Option.pure_def] at h
      obtain ⟨rows, hv, r, hgr, c, hgc, h⟩ := h
      split at h
      · simp only [Option.bind_eq_some] at h
        obtain ⟨⟨m1, b1⟩, hsc, hrec⟩ := h
        obtain ⟨hpre1, hci1, hcfg1⟩ := setCursor_inv f m m1 _ b1 hpre hsc
        obtain ⟨hpre', hcfg', hd⟩ := ih f m1 b1 m' b' hpre1 hrec
        refine ⟨hpre', sameCfg_trans hcfg1 hcfg', Or.inr ?_⟩
        cases hd with
        | inl he => exact he ▸ hci1
        | inr hci => exact hci
      · simp only [Option.bind_eq_some] at h
        obtain ⟨⟨m1, b1⟩, hsc, hout⟩ := h
        obtain ⟨hpre1, hci1, hcfg1⟩ := setCursor_inv f m m1 _ b1 hpre hsc
        simp only [Option.some_inj, Prod.mk.injEq] at hout
        exact ⟨hout.1 ▸ hpre1, hout.1 ▸ hcfg1, Or.inr (hout.1 ▸ hci1)⟩
    · simp only [Option.pure_def, Option.some_inj, Prod.mk.injEq] at h
      exact ⟨h.1 ▸ hpre, h.1 ▸ sameCfg_refl m, Or.inl h.1.symm⟩

theorem dwrSkipSpaces_inv :
    ∀ (lf f : Nat) (m m' : Model), Pre m → dwrSkipSpaces lf f m = some m' →
      Pre m' ∧ SameCfg m m' ∧ (m' = m ∨ ColInv m') := by
  intro lf
  induction lf with
  | zero =>
    intro f m m' _ h
    exact Option.noConfusion h
  | succ lf ih =>
    intro f m m' hpre h
    unfold dwrSkipSpaces at h
    simp only [Option.bind_eq_bind, Option.bind_eq_some, Option.pure_def] at h
    obtain ⟨rows, hv, r, hgr, c, hgc, h⟩ := h
    split at h
    · simp only [Option.bind_eq_some] at h
      obtain ⟨⟨m1, b1⟩, hsc, h⟩ := h
      obtain ⟨hpre1, hci1, hcfg1⟩ := setCursor_inv f m m1 _ b1 hpre hsc
      obtain ⟨rows1, hv1, r1, hgr1, h⟩ := h
      split at h
      · simp only [Option.pure_def, Option.some_inj] at h
        exact ⟨h ▸ hpre1, h ▸ hcfg1, Or.inr (h ▸ hci1)⟩
      · obtain ⟨hpre', hcfg', hd⟩ := ih f m1 m' hpre1 h
        refine ⟨hpre', sameCfg_trans hcfg1 hcfg', Or.inr ?_⟩
        cases hd with
        | inl he => exact he ▸ hci1
        | inr hci => exact hci
    · simp only [Option.pure_def, Option.some_inj] at h
      exact ⟨h ▸ hpre, h ▸ sameCfg_refl m, Or.inl h.symm⟩

theorem dwrSkipWord_inv :
    ∀ (lf f : Nat) (m m' : Model), Pre m → dwrSkipWord lf f m = some m' →
      Pre m' ∧ SameCfg m m' ∧ (m' = m ∨ ColInv m') := by
  intro lf
  induction lf with
  | zero =>
    intro f m m' _ h
    exact Option.noConfusion h
  | succ lf ih =>
    intro f m m' hpre h
    unfold dwrSkipWord at h
    simp only [Option.bind_eq_bind, Option.bind_eq_some, Option.pure_def] at h
    obtain ⟨rows, hv, r, hgr, h⟩ := h
    split at h
    · simp only [Option.bind_eq_some] at h
      obtain ⟨c, hgc, h⟩ := h
      split at h
      · simp only [Option.bind_eq_some] at h
        obtain ⟨⟨m1, b1⟩, hsc, hrec⟩ := h
        obtain ⟨hpre1, hci1, hcfg1⟩ := setCursor_inv f m m1 _ b1 hpre hsc
        obtain ⟨hpre', hcfg', hd⟩ := ih f m1 m' hpre1 hrec
        refine ⟨hpre', sameCfg_trans hcfg1 hcfg', Or.inr ?_⟩
        cases hd with
        | inl he => exact he ▸ hci1
        | inr hci => exact hci
      · simp only [Option.pure_def, Option.some_inj] at h
        exact ⟨h ▸ hpre, h ▸ sameCfg_refl m, Or.inl h.symm⟩
    · simp only [Option.pure_def, Option.some_inj] at h
      exact ⟨h ▸ hpre, h ▸ sameCfg_refl m, Or.inl h.symm⟩

theorem wlLoop_inv (sp : Bool) :
    ∀ (lf f : Nat) (m : Model) (i : Int) (b : Bool) (m' : Model) (i' : Int)
      (b' : Bool), Pre m → wlLoop sp lf f m i b = some (m', i', b') →
      Pre m' ∧ SameCfg m m' ∧ (m' = m ∨ ColInv m') := by
  intro lf
  induction lf with
  | zero =>
    intro f m i b m' i' b' _ h
    exact Option.noConfusion h
  | succ lf ih =>
    intro f m i b m' i' b' hpre h
    unfold wlLoop at h
    split at h
    · simp only [Option.bind_eq_bind, Option.bind_eq_some,
        Option.pure_def] at h
      obtain ⟨rows, hv, r, hgr, c, hgc, h⟩ := h
      split at h
      · simp only [Option.bind_eq_some] at h
        obtain ⟨⟨m1, b1⟩, hsc, hrec⟩ := h
        obtain ⟨hpre1, hci1, hcfg1⟩ := setCursor_inv f m m1 _ b1 hpre hsc
        obtain ⟨hpre', hcfg', hd⟩ := ih f m1 _ b1 m' i' b' hpre1 hrec
        refine ⟨hpre', sameCfg_trans hcfg1 hcfg', Or.inr ?_⟩
        cases hd with
        | inl he => exact he ▸ hci1
        | inr hci => exact hci
      · simp only [Option.pure_def, Option.some_inj, Prod.mk.injEq] at h
        exact ⟨h.1 ▸ hpre, h.1 ▸ sameCfg_refl m, Or.inl h.1.symm⟩
    · simp only [Option.pure_def, Option.some_inj, Prod.mk.injEq] at h
      exact ⟨h.1 ▸ hpre, h.1 ▸ sameCfg_refl m, Or.inl h.1.symm⟩

theorem wrLoop_inv (sp : Bool) :
    ∀ (lf f : Nat) (m : Model) (i : Int) (b : Bool) (m' : Model) (i' : Int)
      (b' : Bool), Pre m → wrLoop sp lf f m i b = some (m', i', b') →
      Pre m' ∧ SameCfg m m' ∧ (m' = m ∨ ColInv m') := by
  intro lf
  induction lf with
  | zero =>
    intro f m i b m' i' b' _ h
    exact Option.noConfusion h
  | succ lf ih =>
    intro f m i b m' i' b' hpre h
    unfold wrLoop at h
    simp only [Option.bind_eq_bind, Option.bind_eq_some, Option.pure_def] at h
    obtain ⟨rows, hv, r, hgr, h⟩ := h
    split at h
    · simp only [Option.bind_eq_some] at h
      obtain ⟨c, hgc, h⟩ := h
      split at h
      · simp only [Option.bind_eq_some] at h
        obtain ⟨⟨m1, b1⟩, hsc, hrec⟩ := h
        obtain ⟨hpre1, hci1, hcfg1⟩ := setCursor_inv f m m1 _ b1 hpre hsc
        obtain ⟨hpre', hcfg', hd⟩ := ih f m1 _ b1 m' i' b' hpre1 hrec
        refine ⟨hpre', sameCfg_trans hcfg1 hcfg', Or.inr ?_⟩
        cases hd with
        | inl he => exact he ▸ hci1
        | inr hci => exact hci
      · simp only [Option.pure_def, Option.some_inj, Prod.mk.injEq] at h
        exact ⟨h.1 ▸ hpre, h.1 ▸ sameCfg_refl m, Or.inl h.1.symm⟩
    · simp only [Option.pure_def, Option.some_inj, Prod.mk.injEq] at h
      exact ⟨h.1 ▸ hpre, h.1 ▸ sameCfg_refl m, Or.inl h.1.symm⟩

end Textinput

namespace Textinput

theorem gtake_eq_some {α : Type} {l out : List α} {j : Int}
    (h : gtake l j = some out) :
    0 ≤ j ∧ j ≤ glen l ∧ out = l.take j.toNat := by
  unfold gtake at h
  split at h
  · next hc =>
    rw [Option.some_inj] at h
    exact ⟨hc.1, hc.2, h.symm⟩
  · exact Option.noConfusion h

theorem gdrop_eq_some {α : Type} {l out : List α} {i : Int}
    (h : gdrop l i = some out) :
    0 ≤ i ∧ i ≤ glen l ∧ out = l.drop i.toNat := by
  unfold gdrop at h
  split at h
  · next hc =>
    rw [Option.some_inj] at h
    exact ⟨hc.1, hc.2, h.symm⟩
  · exact Option.noConfusion h

theorem glen_take {α : Type} (l : List α) (i : Int) (h0 : 0 ≤ i)
    (h1 : i ≤ glen l) : glen (l.take i.toNat) = i := by
  simp only [glen, List.length_take]
  unfold glen at h1
  omega

theorem glen_drop {α : Type} (l : List α) (i : Int) (h0 : 0 ≤ i)
    (h1 : i ≤ glen l) : glen (l.drop i.toNat) = glen l - i := by
  simp only [glen, List.length_drop]
  unfold glen at h1
  omega

theorem glen_append {α : Type} (a b : List α) :
    glen (a ++ b) = glen a + glen b := by
  simp only [glen, List.length_append]
  omega

/-- Pre survives replacing one row of the buffer. -/
theorem pre_set_row {m : Model} {rows rows2 : List (List Char)} {i : Int}
    {x : List Char} (hpre : Pre m) (hv : m.value = some rows)
    (hset : gset rows i x = some rows2) :
    Pre { m with value := some rows2 } := by
  obtain ⟨_, hlen, hr0, hr1, hW⟩ := hpre
  obtain ⟨_, _, rfl⟩ := gset_eq_some hset
  refine ⟨⟨_, rfl⟩, ?_, hr0, hr1, hW⟩
  show glen (Option.getD (some (rows.set i.toNat x)) []) = m.LineLimit
  simp only [Option.getD_some, glen, List.length_set]
  simp only [rowsD, hv, Option.getD_some, glen] at hlen
  exact hlen

theorem deleteBeforeCursor_inv (f : Nat) (m m' : Model) (b : Bool)
    (hpre : Pre m) (h : deleteBeforeCursorF f m = some (m', b)) :
    Pre m' ∧ SameCfg m m' ∧ ColInv m' := by
  unfold deleteBeforeCursorF at h
  simp only [Option.bind_eq_bind, Option.bind_eq_some] at h
  obtain ⟨rows, hv, r, hgr, rest, hdrop, rows2, hset, hsc⟩ := h
  have hpre1 : Pre { m with value := some rows2, offset := 0 } :=
    pre_set_row hpre hv hset
  obtain ⟨hp, hc, hcfg⟩ := setCursor_inv f _ m' 0 b hpre1 hsc
  exact ⟨hp, sameCfg_trans (⟨rfl, rfl, rfl, rfl, rfl, rfl, rfl⟩ :
    SameCfg m { m with value := some rows2, offset := 0 }) hcfg, hc⟩

theorem deleteAfterCursor_inv (f : Nat) (m m' : Model) (b : Bool)
    (hpre : Pre m) (h : deleteAfterCursorF f m = some (m', b)) :
    Pre m' ∧ SameCfg m m' ∧ ColInv m' := by
  unfold deleteAfterCursorF at h
  simp only [Option.bind_eq_bind, Option.bind_eq_some] at h
  obtain ⟨rows, hv, r, hgr, kept, htake, rows2, hset, hsc⟩ := h
  have hpre1 : Pre { m with value := some rows2 } :=
    pre_set_row hpre hv hset
  obtain ⟨hp, hc, hcfg⟩ := setCursor_inv f _ m' (glen kept) b hpre1 hsc
  exact ⟨hp, sameCfg_trans (⟨rfl, rfl, rfl, rfl, rfl, rfl, rfl⟩ :
    SameCfg m { m with value := some rows2 }) hcfg, hc⟩

theorem deleteWordLeft_out (f : Nat) (m m' : Model) (b : Bool)
    (hpre : Pre m) (h : deleteWordLeftF f m = some (m', b)) :
    Pre m' ∧ SameCfg m m' ∧ (m' = m ∨ ColInv m') := by
  unfold deleteWordLeftF at h
  by_cases h0 : m.col = 0
  case pos =>
    rw [if_pos h0] at h
    simp only [Option.pure_def, Option.some_inj, Prod.mk.injEq] at h
    exact ⟨h.1 ▸ hpre, h.1 ▸ sameCfg_refl m, Or.inl h.1.symm⟩
  case neg =>
    rw [if_neg h0] at h
    simp only [Option.bind_eq_bind, Option.bind_eq_some] at h
    obtain ⟨rows, hv, r, hgr, h⟩ := h
    by_cases h1 : glen r = 0
    case pos =>
      rw [if_pos h1] at h
      simp only [Option.pure_def, Option.some_inj, Prod.mk.injEq] at h
      exact ⟨h.1 ▸ hpre, h.1 ▸ sameCfg_refl m, Or.inl h.1.symm⟩
    case neg =>
      rw [if_neg h1] at h
      by_cases h2 : m.echoMode ≠ EchoMode.normal
      case pos =>
        rw [if_pos h2] at h
        obtain ⟨hp, hcfg, hc⟩ := deleteBeforeCursor_inv f m m' b hpre h
        exact ⟨hp, hcfg, Or.inr hc⟩
      case neg =>
        rw [if_neg h2] at h
        simp only [Option.bind_eq_some, Option.pure_def, Option.some_inj] at h
        obtain ⟨⟨m1, b1⟩, hsc, h⟩ := h
        obtain ⟨hpre1, hci1, hcfg1⟩ := setCursor_inv f m m1 _ b1 hpre hsc
        obtain ⟨⟨m2, b2⟩, hl1, h⟩ := h
        obtain ⟨hpre2, hcfg2, hd2⟩ := dwlSkipSpaces_inv f f m1 b1 m2 b2
          hpre1 hl1
        have hci2 : ColInv m2 := by
          cases hd2 with
          | inl he => exact he ▸ hci1
          | inr hci => exact hci
        obtain ⟨⟨m3, b3⟩, hl2, h⟩ := h
        obtain ⟨hpre3, hcfg3, hd3⟩ := dwlSkipWord_inv f f m2 b2 m3 b3
          hpre2 hl2
        have hci3 : ColInv m3 := by
          cases hd3 with
          | inl he => exact he ▸ hci2
          | inr hci => exact hci
        obtain ⟨rows4, hv4, r4, hgr4, h⟩ := h
        obtain ⟨hc30, rci, hgci, hcci⟩ := hci3
        have hx : gget (rowsD m3) m3.row = some r4 := by
          show gget (m3.value.getD []) m3.row = some r4
          rw [show m3.value = some rows4 from hv4]
          exact hgr4
        rw [hgci] at hx
        have hrci : r4 = rci := (Option.some_inj.mp hx).symm
        subst hrci
        have hv4' : m3.value = some rows4 := hv4
        by_cases h3 : m.col > glen r4
        case pos =>
          rw [if_pos h3] at h
          simp only [Option.bind_eq_some, Option.some_inj,
            Prod.mk.injEq] at h
          obtain ⟨kept, htake, rows5, hset, hout, _⟩ := h
          obtain ⟨ht0, ht1, rfl⟩ := gtake_eq_some htake
          subst hout
          refine ⟨pre_set_row hpre3 hv4' hset,
            sameCfg_trans (sameCfg_trans (sameCfg_trans hcfg1 hcfg2) hcfg3)
              (⟨rfl, rfl, rfl, rfl, rfl, rfl, rfl⟩ :
                SameCfg m3 { m3 with value := some rows5 }), Or.inr ?_⟩
          refine ⟨hc30, r4.take m3.col.toNat, ?_, ?_⟩
          · show gget (rowsD { m3 with value := some rows5 }) m3.row = _
            rw [show rowsD { m3 with value := some rows5 } = rows5 from rfl]
            exact gget_gset_self hset
          · show m3.col ≤ glen (r4.take m3.col.toNat)
            rw [glen_take r4 m3.col hc30 hcci]
        case neg =>
          rw [if_neg h3] at h
          simp only [Option.bind_eq_some, Option.some_inj,
            Prod.mk.injEq] at h
          obtain ⟨a, htake, b4, hdrop, rows5, hset, hout, _⟩ := h
          obtain ⟨ht0, ht1, rfl⟩ := gtake_eq_some htake
          obtain ⟨hd0, hd1, rfl⟩ := gdrop_eq_some hdrop
          subst hout
          refine ⟨pre_set_row hpre3 hv4' hset,
            sameCfg_trans (sameCfg_trans (sameCfg_trans hcfg1 hcfg2) hcfg3)
              (⟨rfl, rfl, rfl, rfl, rfl, rfl, rfl⟩ :
                SameCfg m3 { m3 with value := some rows5 }), Or.inr ?_⟩
          refine ⟨hc30, r4.take m3.col.toNat ++ r4.drop m.col.toNat, ?_, ?_⟩
          · show gget (rowsD { m3 with value := some rows5 }) m3.row = _
            rw [show rowsD { m3 with value := some rows5 } = rows5 from rfl]
            exact gget_gset_self hset
          · show m3.col ≤ glen (r4.take m3.col.toNat ++ r4.drop m.col.toNat)
            rw [glen_append, glen_take r4 m3.col hc30 hcci,
              glen_drop r4 m.col hd0 hd1]
            omega

end Textinput

namespace Textinput

theorem deleteWordRight_out (f : Nat) (m m' : Model) (b : Bool)
    (hpre : Pre m) (h : deleteWordRightF f m = some (m', b)) :
    Pre m' ∧ SameCfg m m' ∧ (m' = m ∨ ColInv m') := by
  unfold deleteWordRightF at h
  simp only [Option.bind_eq_bind, Option.bind_eq_some] at h
  obtain ⟨rows, hv, r, hgr, h⟩ := h
  by_cases h1 : m.col ≥ glen r ∨ glen r = 0
  case pos =>
    rw [if_pos h1] at h
    simp only [Option.pure_def, Option.some_inj, Prod.mk.injEq] at h
    exact ⟨h.1 ▸ hpre, h.1 ▸ sameCfg_refl m, Or.inl h.1.symm⟩
  case neg =>
    rw [if_neg h1] at h
    by_cases h2 : m.echoMode ≠ EchoMode.normal
    case pos =>
      rw [if_pos h2] at h
      obtain ⟨hp, hcfg, hc⟩ := deleteAfterCursor_inv f m m' b hpre h
      exact ⟨hp, hcfg, Or.inr hc⟩
    case neg =>
      rw [if_neg h2] at h
      simp only [Option.bind_eq_some] at h
      obtain ⟨⟨m1, b1⟩, hsc, h⟩ := h
      obtain ⟨hpre1, hci1, hcfg1⟩ := setCursor_inv f m m1 _ b1 hpre hsc
      obtain ⟨m2, hl1, h⟩ := h
      obtain ⟨hpre2, hcfg2, _⟩ := dwrSkipSpaces_inv f f m1 m2 hpre1 hl1
      obtain ⟨m3, hl2, h⟩ := h
      obtain ⟨hpre3, hcfg3, _⟩ := dwrSkipWord_inv f f m2 m3 hpre2 hl2
      obtain ⟨rows4, hv4, r4, hgr4, h⟩ := h
      have hv4' : m3.value = some rows4 := hv4
      by_cases h3 : m3.col > glen r4
      case pos =>
        rw [if_pos h3] at h
        simp only [Option.bind_eq_some] at h
        obtain ⟨kept, htake, rows5, hset, hfin⟩ := h
        obtain ⟨hp, hc, hcfg4⟩ := setCursor_inv f _ m' m.col b
          (pre_set_row hpre3 hv4' hset) hfin
        exact ⟨hp, sameCfg_trans (sameCfg_trans (sameCfg_trans hcfg1 hcfg2)
          (sameCfg_trans hcfg3 (⟨rfl, rfl, rfl, rfl, rfl, rfl, rfl⟩ :
            SameCfg m3 { m3 with value := some rows5 }))) hcfg4,
          Or.inr hc⟩
      case neg =>
        rw [if_neg h3] at h
        simp only [Option.bind_eq_some] at h
        obtain ⟨a, htake, b4, hdrop, rows5, hset, hfin⟩ := h
        obtain ⟨hp, hc, hcfg4⟩ := setCursor_inv f _ m' m.col b
          (pre_set_row hpre3 hv4' hset) hfin
        exact ⟨hp, sameCfg_trans (sameCfg_trans (sameCfg_trans hcfg1 hcfg2)
          (sameCfg_trans hcfg3 (⟨rfl, rfl, rfl, rfl, rfl, rfl, rfl⟩ :
            SameCfg m3 { m3 with value := some rows5 }))) hcfg4,
          Or.inr hc⟩

theorem wordLeft_out (f : Nat) (m m' : Model) (b : Bool)
    (hpre : Pre m) (h : wordLeftF f m = some (m', b)) :
    Pre m' ∧ SameCfg m m' ∧ (m' = m ∨ ColInv m') := by
  unfold wordLeftF at h
  by_cases h0 : m.col = 0
  case pos =>
    rw [if_pos h0] at h
    simp only [Option.pure_def, Option.some_inj, Prod.mk.injEq] at h
    exact ⟨h.1 ▸ hpre, h.1 ▸ sameCfg_refl m, Or.inl h.1.symm⟩
  case neg =>
    rw [if_neg h0] at h
    simp only [Option.bind_eq_bind, Option.bind_eq_some] at h
    obtain ⟨rows, hv, r, hgr, h⟩ := h
    by_cases h1 : glen r = 0
    case pos =>
      rw [if_pos h1] at h
      simp only [Option.pure_def, Option.some_inj, Prod.mk.injEq] at h
      exact ⟨h.1 ▸ hpre, h.1 ▸ sameCfg_refl m, Or.inl h.1.symm⟩
    case neg =>
      rw [if_neg h1] at h
      by_cases h2 : m.echoMode ≠ EchoMode.normal
      case pos =>
        rw [if_pos h2] at h
        obtain ⟨hp, hc, hcfg⟩ := setCursor_inv f m m' 0 b hpre h
        exact ⟨hp, hcfg, Or.inr hc⟩
      case neg =>
        rw [if_neg h2] at h
        simp only [Option.bind_eq_some, Option.pure_def, Option.some_inj] at h
        obtain ⟨⟨m1, i1, b1⟩, hl1, h⟩ := h
        obtain ⟨hpre1, hcfg1, hd1⟩ := wlLoop_inv true f f m _ false m1 i1 b1
          hpre hl1
        obtain ⟨⟨m2, i2, b2⟩, hl2, hout⟩ := h
        obtain ⟨hpre2, hcfg2, hd2⟩ := wlLoop_inv false f f m1 _ b1 m2 i2 b2
          hpre1 hl2
        simp only [Prod.mk.injEq] at hout
        refine ⟨hout.1 ▸ hpre2, hout.1 ▸ sameCfg_trans hcfg1 hcfg2, ?_⟩
        cases hd2 with
        | inl he2 =>
          cases hd1 with
          | inl he1 => exact Or.inl (hout.1 ▸ (he2.trans he1))
          | inr hc1 => exact Or.inr (hout.1 ▸ (he2 ▸ hc1))
        | inr hc2 => exact Or.inr (hout.1 ▸ hc2)

theorem wordRight_out (f : Nat) (m m' : Model) (b : Bool)
    (hpre : Pre m) (h : wordRightF f m = some (m', b)) :
    Pre m' ∧ SameCfg m m' ∧ (m' = m ∨ ColInv m') := by
  unfold wordRightF at h
  simp only [Option.bind_eq_bind, Option.bind_eq_some] at h
  obtain ⟨rows, hv, r, hgr, h⟩ := h
  by_cases h1 : m.col ≥ glen r ∨ glen r = 0
  case pos =>
    rw [if_pos h1] at h
    simp only [Option.pure_def, Option.some_inj, Prod.mk.injEq] at h
    exact ⟨h.1 ▸ hpre, h.1 ▸ sameCfg_refl m, Or.inl h.1.symm⟩
  case neg =>
    rw [if_neg h1] at h
    by_cases h2 : m.echoMode ≠ EchoMode.normal
    case pos =>
      rw [if_pos h2] at h
      unfold cursorEndF at h
      simp only [Option.bind_eq_bind, Option.bind_eq_some] at h
      obtain ⟨rows2, hv2, r2, hgr2, hsc⟩ := h
      obtain ⟨hp, hc, hcfg⟩ := setCursor_inv f m m' (glen r2) b hpre hsc
      exact ⟨hp, hcfg, Or.inr hc⟩
    case neg =>
      rw [if_neg h2] at h
      simp only [Option.bind_eq_some, Option.pure_def, Option.some_inj] at h
      obtain ⟨⟨m1, i1, b1⟩, hl1, h⟩ := h
      obtain ⟨hpre1, hcfg1, hd1⟩ := wrLoop_inv true f f m _ false m1 i1 b1
        hpre hl1
      obtain ⟨⟨m2, i2, b2⟩, hl2, hout⟩ := h
      obtain ⟨hpre2, hcfg2, hd2⟩ := wrLoop_inv false f f m1 _ b1 m2 i2 b2
        hpre1 hl2
      simp only [Prod.mk.injEq] at hout
      refine ⟨hout.1 ▸ hpre2, hout.1 ▸ sameCfg_trans hcfg1 hcfg2, ?_⟩
      cases hd2 with
      | inl he2 =>
        cases hd1 with
        | inl he1 => exact Or.inl (hout.1 ▸ (he2.trans he1))
        | inr hc1 => exact Or.inr (hout.1 ▸ (he2 ▸ hc1))
      | inr hc2 => exact Or.inr (hout.1 ▸ hc2)

theorem insert_out (f : Nat) (m m' : Model) (runes : List Char)
    (hpre : Pre m) (h : insertF f m runes = some m') :
    Pre m' ∧ SameCfg m m' ∧ (m'.value = m.value ∨ ColInv m') := by
  unfold insertF at h
  by_cases h0 : m.Height > 1 ∧ m.row ≥ m.LineLimit - 1
  case pos =>
    rw [if_pos h0] at h
    simp only [Option.bind_eq_bind, Option.bind_eq_some, Option.pure_def,
      Option.some_inj] at h
    obtain ⟨rows, hv, r, hgr, stop, hstop, h⟩ := h
    subst hstop
    by_cases hd : glen r ≥ m.Width
    case pos =>
      rw [decide_eq_true hd, if_pos rfl] at h
      simp only [Option.some_inj] at h
      exact ⟨h ▸ hpre, h ▸ sameCfg_refl m, Or.inl (h ▸ rfl)⟩
    case neg =>
      rw [decide_eq_false hd] at h
      rw [if_neg (by simp)] at h
      simp only [Option.bind_eq_some] at h
      obtain ⟨m1, hcb, h⟩ := h
      obtain ⟨hpre1, hci1, hcfg1, hval1, _⟩ := hcb_inv m m1 hpre hcb
      obtain ⟨can, hcan, h⟩ := h
      by_cases hc : can = true
      case pos =>
        rw [hc] at h
        rw [if_pos rfl] at h
        simp only [Option.bind_eq_some] at h
        obtain ⟨rows1, hv1, r1, hgr1, a, hta, b2, hdb, rows2, hset, h⟩ := h
        simp only [Option.bind_eq_some, Option.pure_def, Option.some_inj] at h
        obtain ⟨⟨m2, b3⟩, hsc, hout⟩ := h
        obtain ⟨hp, hcv, hcfg2⟩ := setCursor_inv f _ m2 (m1.col + glen runes) b3
          (pre_set_row hpre1 hv1 hset) hsc
        exact ⟨hout ▸ hp, hout ▸ sameCfg_trans hcfg1 (sameCfg_trans
          (⟨rfl, rfl, rfl, rfl, rfl, rfl, rfl⟩ :
            SameCfg m1 { m1 with value := some rows2 }) hcfg2),
          Or.inr (hout ▸ hcv)⟩
      case neg =>
        rw [Bool.not_eq_true] at hc
        rw [hc] at h
        rw [if_neg (by simp)] at h
        simp only [Option.pure_def, Option.some_inj] at h
        subst h
        exact ⟨hpre1, hcfg1, Or.inl hval1⟩
  case neg =>
    rw [if_neg h0] at h
    simp only [Option.bind_eq_bind, Option.bind_eq_some, Option.pure_def,
      Option.some_inj] at h
    obtain ⟨y, hy, h⟩ := h
    subst hy
    rw [if_neg (by simp)] at h
    simp only [Option.bind_eq_bind, Option.bind_eq_some] at h
    obtain ⟨m1, hcb, h⟩ := h
    obtain ⟨hpre1, hci1, hcfg1, hval1, _⟩ := hcb_inv m m1 hpre hcb
    obtain ⟨can, hcan, h⟩ := h
    by_cases hc : can = true
    case pos =>
      rw [hc] at h
      rw [if_pos rfl] at h
      simp only [Option.bind_eq_some] at h
      obtain ⟨rows1, hv1, r1, hgr1, a, hta, b2, hdb, rows2, hset, h⟩ := h
      simp only [Option.bind_eq_some, Option.pure_def, Option.some_inj] at h
      obtain ⟨⟨m2, b3⟩, hsc, hout⟩ := h
      obtain ⟨hp, hcv, hcfg2⟩ := setCursor_inv f _ m2 (m1.col + glen runes) b3
        (pre_set_row hpre1 hv1 hset) hsc
      exact ⟨hout ▸ hp, hout ▸ sameCfg_trans hcfg1 (sameCfg_trans
        (⟨rfl, rfl, rfl, rfl, rfl, rfl, rfl⟩ :
          SameCfg m1 { m1 with value := some rows2 }) hcfg2),
        Or.inr (hout ▸ hcv)⟩
    case neg =>
      rw [Bool.not_eq_true] at hc
      rw [hc] at h
      rw [if_neg (by simp)] at h
      simp only [Option.pure_def, Option.some_inj] at h
      subst h
      exact ⟨hpre1, hcfg1, Or.inl hval1⟩

end Textinput

namespace Textinput

theorem gget_bounds {α : Type} {l : List α} {i : Int} {a : α}
    (h : gget l i = some a) : 0 ≤ i ∧ i < glen l := by
  obtain ⟨h0, hlt, _⟩ := gget_eq_some.mp h
  refine ⟨h0, ?_⟩
  unfold glen
  omega

theorem colInv_bound {m : Model} {rows : List (List Char)} {r : List Char}
    (hc : ColInv m) (hv : m.value = some rows)
    (hg : gget rows m.row = some r) : 0 ≤ m.col ∧ m.col ≤ glen r := by
  obtain ⟨h0, r2, hg2, hle⟩ := hc
  have : gget rows m.row = some r2 := by
    simpa only [rowsD, hv, Option.getD_some] using hg2
  rw [hg] at this
  rw [Option.some_inj] at this
  exact ⟨h0, this ▸ hle⟩

theorem cursorEnd_inv (f : Nat) (m m' : Model) (b : Bool) (hpre : Pre m)
    (h : cursorEndF f m = some (m', b)) :
    Pre m' ∧ ColInv m' ∧ SameCfg m m' := by
  unfold cursorEndF at h
  simp only [Option.bind_eq_bind, Option.bind_eq_some] at h
  obtain ⟨rows, hv, r, hgr, hsc⟩ := h
  exact setCursor_inv f m m' (glen r) b hpre hsc

theorem kc_backspace_out (f : Nat) (m m' : Model) (alt : Bool)
    (runes : List Char) (hpre : Pre m) (hcol : 0 ≤ m.col)
    (h : keyCaseF f m KeyType.backspace alt runes = some m') :
    Pre m' ∧ SameCfg m m' ∧ (m'.value = m.value ∨ ColInv m') := by
  unfold keyCaseF at h
  by_cases halt : alt = true
  case pos =>
    rw [halt, if_pos rfl] at h
    simp only [Option.bind_eq_bind, Option.bind_eq_some, Option.pure_def,
      Option.some_inj] at h
    obtain ⟨⟨m1, b1⟩, hw, hout⟩ := h
    obtain ⟨hp, hcfg, hd⟩ := deleteWordLeft_out f m m1 b1 hpre hw
    refine ⟨hout ▸ hp, hout ▸ hcfg, ?_⟩
    cases hd with
    | inl he => exact Or.inl (hout ▸ he ▸ rfl)
    | inr hc => exact Or.inr (hout ▸ hc)
  case neg =>
    rw [Bool.not_eq_true] at halt
    rw [halt] at h
    rw [if_neg (by simp)] at h
    by_cases hmerge : m.col = 0 ∧ m.row > 0
    case pos =>
      rw [if_pos hmerge] at h
      simp only [Option.bind_eq_bind, Option.bind_eq_some] at h
      obtain ⟨rows, hv, cur, hcur, h⟩ := h
      obtain ⟨⟨m3, b3⟩, hce, h⟩ := h
      have hpre2 : Pre (lineUp m) := lineUp_pre m hpre
      obtain ⟨hpre3, hci3, hcfg3⟩ := cursorEnd_inv f (lineUp m) m3 b3 hpre2 hce
      have hcfgm3 : SameCfg m m3 := sameCfg_trans (lineUp_cfg m) hcfg3
      obtain ⟨rows3, hv3x, r, hgr, h⟩ := h
      have hv3 : m3.value = some rows3 := hv3x
      by_cases hg : ¬ cur.isEmpty = true ∧ glen r ≥ m3.Width
      case pos =>
        rw [if_pos hg] at h
        simp only [Option.pure_def, Option.some_inj] at h
        exact ⟨h ▸ hpre3, h ▸ hcfgm3, Or.inr (h ▸ hci3)⟩
      case neg =>
        rw [if_neg hg] at h
        simp only [Option.bind_eq_bind, Option.bind_eq_some, Option.pure_def,
          Option.some_inj] at h
        obtain ⟨nxt, hnxt, rows4, hset4, rows5, hsu, rows6, hset6, hout⟩ := h
        obtain ⟨hb0, hb1⟩ := gget_bounds hnxt
        obtain ⟨hpv, hlen3, hr30, hr31, hW3⟩ := hpre3
        have hlen3' : glen rows3 = m3.LineLimit := by
          simpa only [rowsD, hv3, Option.getD_some] using hlen3
        obtain ⟨hs40, hs41, hrows4⟩ := gset_eq_some hset4
        have hlen4 : glen rows4 = glen rows3 := by
          rw [hrows4]
          simp only [glen, List.length_set]
        obtain ⟨hlen5, hkeep5⟩ := shiftUpLoop_facts _ _ _ _ _
          (show shiftUpLoop ((m3.LineLimit - 1 - (m3.row + 1)).toNat)
            rows4 (m3.row + 1) (m3.LineLimit - 1) = some rows5 from hsu)
        obtain ⟨hs60, hs61, hrows6⟩ := gset_eq_some hset6
        have hlen6 : glen rows6 = glen rows5 := by
          rw [hrows6]
          simp only [glen, List.length_set]
        have hlen5' : glen rows5 = glen rows4 := by
          simp only [glen, hlen5]
        refine ⟨?_, ?_, Or.inr ?_⟩
        · rw [← hout]
          refine ⟨⟨rows6, rfl⟩, ?_, hr30, hr31, hW3⟩
          show glen rows6 = m3.LineLimit
          rw [hlen6, hlen5', hlen4, hlen3']
        · rw [← hout]
          exact sameCfg_trans hcfgm3 ⟨rfl, rfl, rfl, rfl, rfl, rfl, rfl⟩
        · rw [← hout]
          have hrow_lt : m3.row < m3.LineLimit - 1 := by
            rw [hlen3'] at hb1
            omega
          have hg5 : gget rows6 m3.row = gget rows5 m3.row :=
            gget_gset_other hset6 (by omega)
          have hg4 : gget rows5 m3.row = gget rows4 m3.row :=
            hkeep5 m3.row (by omega)
          have hgself : gget rows4 m3.row = some (r ++ nxt) :=
            gget_gset_self hset4
          obtain ⟨hc0, hcle⟩ := colInv_bound hci3 hv3 hgr
          refine ⟨hc0, r ++ nxt, ?_, ?_⟩
          · show gget rows6 m3.row = some (r ++ nxt)
            rw [hg5, hg4, hgself]
          · show m3.col ≤ glen (r ++ nxt)
            rw [glen_append]
            have := glen_nonneg nxt
            omega
    case neg =>
      rw [if_neg hmerge] at h
      simp only [Option.bind_eq_bind, Option.bind_eq_some] at h
      obtain ⟨rows, hv, r, hgr, h⟩ := h
      by_cases hg : glen r > 0
      case pos =>
        rw [if_pos hg] at h
        simp only [Option.bind_eq_some] at h
        obtain ⟨a, hta, b2, hdb, rows2, hset, h⟩ := h
        by_cases hc2 : m.col > 0
        case pos =>
          rw [if_pos hc2] at h
          simp only [Option.bind_eq_some, Option.pure_def, Option.some_inj] at h
          obtain ⟨⟨m5, b5⟩, hsc, hout⟩ := h
          obtain ⟨hp, hcv, hcfg5⟩ := setCursor_inv f _ m5 (m.col - 1) b5
            (pre_set_row hpre hv hset) hsc
          exact ⟨hout ▸ hp, hout ▸ sameCfg_trans
            (⟨rfl, rfl, rfl, rfl, rfl, rfl, rfl⟩ :
              SameCfg m { m with value := some rows2 }) hcfg5,
            Or.inr (hout ▸ hcv)⟩
        case neg =>
          rw [if_neg hc2] at h
          simp only [Option.pure_def, Option.some_inj] at h
          refine ⟨h ▸ pre_set_row hpre hv hset,
            h ▸ (⟨rfl, rfl, rfl, rfl, rfl, rfl, rfl⟩ :
              SameCfg m { m with value := some rows2 }), Or.inr (h ▸ ?_)⟩
          refine ⟨hcol, a ++ b2, ?_, ?_⟩
          · show gget rows2 m.row = some (a ++ b2)
            exact gget_gset_self hset
          · show m.col ≤ glen (a ++ b2)
            have := glen_nonneg (a ++ b2)
            omega
      case neg =>
        rw [if_neg hg] at h
        simp only [Option.pure_def, Option.some_inj] at h
        exact ⟨h ▸ hpre, h ▸ sameCfg_refl m, Or.inl (h ▸ rfl)⟩

end Textinput

namespace Textinput

theorem lineDown_col (m : Model) : (lineDown m).col = m.col := by
  unfold lineDown setYOffset
  split <;> rfl

theorem lineDown_row (m : Model) :
    (lineDown m).row = if m.row < m.LineLimit - 1 then m.row + 1 else m.row := by
  unfold lineDown setYOffset
  split <;> rfl

theorem kc_enter_out (f : Nat) (m m' : Model) (alt : Bool)
    (runes : List Char) (hpre : Pre m)
    (h : keyCaseF f m KeyType.enter alt runes = some m') :
    Pre m' ∧ SameCfg m m' ∧ (m'.value = m.value ∨ ColInv m') := by
  unfold keyCaseF at h
  simp only [Option.bind_eq_bind, Option.bind_eq_some] at h
  obtain ⟨m1, hcb, h⟩ := h
  obtain ⟨hpre1, hci1, hcfg1, hval1, hrow1⟩ := hcb_inv m m1 hpre hcb
  have hpre2 : Pre (lineDown m1) := lineDown_pre m1 hpre1
  have hval2 : (lineDown m1).value = m1.value := lineDown_value m1
  have hcfg2 : SameCfg m (lineDown m1) :=
    sameCfg_trans hcfg1 (lineDown_cfg m1)
  by_cases hLL : (lineDown m1).LineLimit ≤ 1
  case pos =>
    rw [if_pos hLL] at h
    simp only [Option.pure_def, Option.some_inj] at h
    exact ⟨h ▸ hpre2, h ▸ hcfg2, Or.inl (h ▸ (hval2.trans hval1))⟩
  case neg =>
    rw [if_neg hLL] at h
    simp only [Option.bind_eq_bind, Option.bind_eq_some] at h
    obtain ⟨rows, hvx, lastLine, hll, h⟩ := h
    have hv2 : (lineDown m1).value = some rows := hvx
    by_cases hg : glen lastLine > 0
    case pos =>
      rw [if_pos hg] at h
      simp only [Option.pure_def, Option.some_inj] at h
      exact ⟨h ▸ hpre2, h ▸ hcfg2, Or.inl (h ▸ (hval2.trans hval1))⟩
    case neg =>
      rw [if_neg hg] at h
      simp only [Option.bind_eq_bind, Option.bind_eq_some] at h
      obtain ⟨rows5, hsd, oldRow, hor, s1, hs1, s2, hs2, h⟩ := h
      obtain ⟨hlen5, hkeep5⟩ := shiftDownLoop_facts _ _ _ _ _
        (show shiftDownLoop
          (((lineDown m1).LineLimit - 1 - (lineDown m1).row).toNat)
          rows (lineDown m1).row ((lineDown m1).LineLimit - 1) = some rows5
          from hsd)
      obtain ⟨hpv2, hlen2, hr20, hr21, hW2⟩ := hpre2
      have hlen2' : glen rows = (lineDown m1).LineLimit := by
        simpa only [rowsD, hv2, Option.getD_some] using hlen2
      have hlen5' : glen rows5 = glen rows := by
        simp only [glen, hlen5]
      by_cases heq : m1.row = (lineDown m1).row
      case pos =>
        rw [if_pos heq] at h
        simp only [Option.bind_eq_bind, Option.bind_eq_some] at h
        obtain ⟨rows6, hset6, h⟩ := h
        rw [if_neg (by simp [heq])] at h
        simp only [Option.pure_def, Option.some_inj] at h
        obtain ⟨hs60, hs61, hrows6⟩ := gset_eq_some hset6
        have hlen6 : glen rows6 = glen rows5 := by
          rw [hrows6]
          simp only [glen, List.length_set]
        have hrow_eq : m1.row = m1.LineLimit - 1 := by
          have hld := lineDown_row m1
          by_cases hlt : m1.row < m1.LineLimit - 1
          · rw [if_pos hlt] at hld
            rw [hld] at heq
            omega
          · have : m1.row < m1.LineLimit := hpre1.2.2.2.1
            omega
        have hcol0 : m1.col = 0 := by
          have hll' : gget rows m1.row = some lastLine := by
            have hidx : ((lineDown m1).LineLimit - 1 : Int) = m1.row := by
              rw [(lineDown_cfg m1).1]
              omega
            rw [hidx] at hll
            exact hll
          have hv1 : m1.value = some rows := hval2 ▸ hv2
          obtain ⟨hc0, hcle⟩ := colInv_bound hci1 hv1 hll'
          omega
        refine ⟨?_, ?_, Or.inr ?_⟩
        · rw [← h]
          refine ⟨⟨rows6, rfl⟩, ?_, hr20, hr21, hW2⟩
          show glen rows6 = (lineDown m1).LineLimit
          rw [hlen6, hlen5', hlen2']
        · rw [← h]
          exact sameCfg_trans hcfg2 ⟨rfl, rfl, rfl, rfl, rfl, rfl, rfl⟩
        · rw [← h]
          refine ⟨?_, s2, ?_, ?_⟩
          · show (0 : Int) ≤ (lineDown m1).col
            rw [lineDown_col]
            omega
          · show gget rows6 (lineDown m1).row = some s2
            exact gget_gset_self hset6
          · show (lineDown m1).col ≤ glen s2
            rw [lineDown_col, hcol0]
            exact glen_nonneg s2
      case neg =>
        rw [if_neg heq] at h
        simp only [Option.bind_eq_bind, Option.bind_eq_some] at h
        obtain ⟨rows5a, hset5a, rows6, hset6', h⟩ := h
        rw [if_pos (by simpa using heq)] at h
        simp only [Option.pure_def, Option.some_inj] at h
        obtain ⟨hsa0, hsa1, hrows5a⟩ := gset_eq_some hset5a
        have hlen5a : glen rows5a = glen rows5 := by
          rw [hrows5a]
          simp only [glen, List.length_set]
        obtain ⟨hs60, hs61, hrows6⟩ := gset_eq_some hset6'
        have hlen6 : glen rows6 = glen rows5a := by
          rw [hrows6]
          simp only [glen, List.length_set]
        refine ⟨?_, ?_, Or.inr ?_⟩
        · rw [← h]
          refine ⟨⟨rows6, rfl⟩, ?_, hr20, hr21, hW2⟩
          show glen rows6 = (lineDown m1).LineLimit
          rw [hlen6, hlen5a, hlen5', hlen2']
        · rw [← h]
          exact sameCfg_trans hcfg2 ⟨rfl, rfl, rfl, rfl, rfl, rfl, rfl⟩
        · rw [← h]
          refine ⟨le_refl 0, s2, ?_, ?_⟩
          · show gget rows6 (lineDown m1).row = some s2
            exact gget_gset_self hset6'
          · show (0 : Int) ≤ glen s2
            exact glen_nonneg s2

end Textinput

namespace Textinput

theorem kc_left_out (f : Nat) (m m' : Model) (alt : Bool)
    (runes : List Char) (hpre : Pre m)
    (h : keyCaseF f m KeyType.left alt runes = some m') :
    Pre m' ∧ SameCfg m m' ∧ (m' = m ∨ ColInv m') := by
  unfold keyCaseF at h
  simp only [Option.bind_eq_bind] at h
  by_cases halt : alt = true
  case pos =>
    rw [if_pos halt] at h
    simp only [Option.bind_eq_some, Option.pure_def, Option.some_inj] at h
    obtain ⟨⟨m1, b1⟩, hw, hout⟩ := h
    obtain ⟨hp, hcfg, hd⟩ := wordLeft_out f m m1 b1 hpre hw
    exact ⟨hout ▸ hp, hout ▸ hcfg, hout ▸ hd⟩
  case neg =>
    rw [if_neg halt] at h
    by_cases hin : m.LineLimit > 1 ∧ m.col = 0 ∧ m.row ≠ 0
    case pos =>
      rw [if_pos hin] at h
      simp only [Option.bind_eq_some, Option.pure_def, Option.some_inj] at h
      obtain ⟨⟨m3, b3⟩, hce, y, hy, h⟩ := h
      subst hy
      obtain ⟨hpre3, hci3, hcfg3⟩ := cursorEnd_inv f (lineUp m) m3 b3
        (lineUp_pre m hpre) hce
      have hcfgm3 : SameCfg m m3 := sameCfg_trans (lineUp_cfg m) hcfg3
      have h4 : ({ m3 with col := m3.col + 1 } : Model).col > 0 := by
        show m3.col + 1 > 0
        have := hci3.1
        omega
      rw [if_pos h4] at h
      simp only [Option.bind_eq_some, Option.pure_def, Option.some_inj] at h
      obtain ⟨⟨m5, b5⟩, hsc, hout⟩ := h
      have hpre4 : Pre ({ m3 with col := m3.col + 1 } : Model) := by
        obtain ⟨hv, hlen, h0, h1, hW⟩ := hpre3
        exact ⟨hv, hlen, h0, h1, hW⟩
      obtain ⟨hp, hcv, hcfg5⟩ := setCursor_inv f _ m5 _ b5 hpre4 hsc
      exact ⟨hout ▸ hp, hout ▸ sameCfg_trans hcfgm3 (sameCfg_trans
        (⟨rfl, rfl, rfl, rfl, rfl, rfl, rfl⟩ :
          SameCfg m3 { m3 with col := m3.col + 1 }) hcfg5),
        Or.inr (hout ▸ hcv)⟩
    case neg =>
      rw [if_neg hin] at h
      simp only [Option.bind_eq_some, Option.pure_def, Option.some_inj] at h
      obtain ⟨y, hy, h⟩ := h
      subst hy
      by_cases hc : m.col > 0
      case pos =>
        rw [if_pos hc] at h
        simp only [Option.bind_eq_some, Option.pure_def, Option.some_inj] at h
        obtain ⟨⟨m5, b5⟩, hsc, hout⟩ := h
        obtain ⟨hp, hcv, hcfg5⟩ := setCursor_inv f m m5 _ b5 hpre hsc
        exact ⟨hout ▸ hp, hout ▸ hcfg5, Or.inr (hout ▸ hcv)⟩
      case neg =>
        rw [if_neg hc] at h
        rw [Option.some_inj] at h
        exact ⟨h ▸ hpre, h ▸ sameCfg_refl m, Or.inl h.symm⟩

theorem kc_right_out (f : Nat) (m m' : Model) (alt : Bool)
    (runes : List Char) (hpre : Pre m)
    (h : keyCaseF f m KeyType.right alt runes = some m') :
    Pre m' ∧ SameCfg m m' ∧ (m' = m ∨ ColInv m') := by
  unfold keyCaseF at h
  simp only [Option.bind_eq_bind] at h
  by_cases halt : alt = true
  case pos =>
    rw [if_pos halt] at h
    simp only [Option.bind_eq_some, Option.pure_def, Option.some_inj] at h
    obtain ⟨⟨m1, b1⟩, hw, hout⟩ := h
    obtain ⟨hp, hcfg, hd⟩ := wordRight_out f m m1 b1 hpre hw
    exact ⟨hout ▸ hp, hout ▸ hcfg, hout ▸ hd⟩
  case neg =>
    rw [if_neg halt] at h
    by_cases hLL : m.LineLimit > 1
    case pos =>
      rw [if_pos hLL] at h
      simp only [Option.bind_eq_some, Option.pure_def, Option.some_inj] at h
      obtain ⟨rows, hv, r, hgr, h⟩ := h
      by_cases hcond : m.col ≥ glen r ∧ m.row ≠ m.LineLimit - 1
      case pos =>
        rw [if_pos hcond] at h
        simp only [Option.bind_eq_some, Option.pure_def, Option.some_inj] at h
        obtain ⟨⟨mcs, bcs⟩, hcs, y, hy, h⟩ := h
        subst hy
        obtain ⟨hpcs, hcics, hcfgcs⟩ := setCursor_inv f (lineDown m) mcs 0 bcs
          (lineDown_pre m hpre) hcs
        have hcfgm : SameCfg m mcs := sameCfg_trans (lineDown_cfg m) hcfgcs
        obtain ⟨rows4, hv4x, r4, hgr4, h⟩ := h
        have hv4 : mcs.value = some rows4 := hv4x
        have hgr4' : gget rows4 mcs.row = some r4 := hgr4
        obtain ⟨hc0, hcle⟩ := colInv_bound hcics hv4 hgr4'
        by_cases hlt : ({ mcs with col := mcs.col - 1 } : Model).col < glen r4
        case pos =>
          rw [if_pos hlt] at h
          simp only [Option.bind_eq_some, Option.pure_def, Option.some_inj] at h
          obtain ⟨⟨m5, b5⟩, hsc, hout⟩ := h
          have hpre4 : Pre ({ mcs with col := mcs.col - 1 } : Model) := by
            obtain ⟨hvv, hlen, h0, h1, hW⟩ := hpcs
            exact ⟨hvv, hlen, h0, h1, hW⟩
          obtain ⟨hp, hcv, hcfg5⟩ := setCursor_inv f _ m5 _ b5 hpre4 hsc
          exact ⟨hout ▸ hp, hout ▸ sameCfg_trans hcfgm (sameCfg_trans
            (⟨rfl, rfl, rfl, rfl, rfl, rfl, rfl⟩ :
              SameCfg mcs { mcs with col := mcs.col - 1 }) hcfg5),
            Or.inr (hout ▸ hcv)⟩
        case neg =>
          exfalso
          apply hlt
          show mcs.col - 1 < glen r4
          omega
      case neg =>
        rw [if_neg hcond] at h
        simp only [Option.bind_eq_some, Option.pure_def, Option.some_inj] at h
        obtain ⟨y, hy, h⟩ := h
        subst hy
        obtain ⟨rows4, hv4, r4, hgr4, h⟩ := h
        by_cases hlt : m.col < glen r4
        case pos =>
          rw [if_pos hlt] at h
          simp only [Option.bind_eq_some, Option.pure_def, Option.some_inj] at h
          obtain ⟨⟨m5, b5⟩, hsc, hout⟩ := h
          obtain ⟨hp, hcv, hcfg5⟩ := setCursor_inv f m m5 _ b5 hpre hsc
          exact ⟨hout ▸ hp, hout ▸ hcfg5, Or.inr (hout ▸ hcv)⟩
        case neg =>
          rw [if_neg hlt] at h
          rw [Option.some_inj] at h
          exact ⟨h ▸ hpre, h ▸ sameCfg_refl m, Or.inl h.symm⟩
    case neg =>
      rw [if_neg hLL] at h
      simp only [Option.bind_eq_some, Option.pure_def, Option.some_inj] at h
      obtain ⟨y, hy, h⟩ := h
      subst hy
      obtain ⟨rows4, hv4, r4, hgr4, h⟩ := h
      by_cases hlt : m.col < glen r4
      case pos =>
        rw [if_pos hlt] at h
        simp only [Option.bind_eq_some, Option.pure_def, Option.some_inj] at h
        obtain ⟨⟨m5, b5⟩, hsc, hout⟩ := h
        obtain ⟨hp, hcv, hcfg5⟩ := setCursor_inv f m m5 _ b5 hpre hsc
        exact ⟨hout ▸ hp, hout ▸ hcfg5, Or.inr (hout ▸ hcv)⟩
      case neg =>
        rw [if_neg hlt] at h
        rw [Option.some_inj] at h
        exact ⟨h ▸ hpre, h ▸ sameCfg_refl m, Or.inl h.symm⟩

end Textinput

namespace Textinput

theorem kc_runes_out (f : Nat) (m m' : Model) (alt : Bool)
    (runes : List Char) (hpre : Pre m)
    (h : keyCaseF f m KeyType.runes alt runes = some m') :
    Pre m' ∧ SameCfg m m' ∧ (m'.value = m.value ∨ ColInv m') := by
  unfold keyCaseF at h
  simp only [Option.bind_eq_bind] at h
  by_cases halt : alt = true
  case pos =>
    rw [if_pos halt] at h
    by_cases hd : runes = ['d']
    case pos =>
      rw [if_pos hd] at h
      simp only [Option.bind_eq_some, Option.pure_def, Option.some_inj] at h
      obtain ⟨⟨m1, b1⟩, hw, hout⟩ := h
      obtain ⟨hp, hcfg, hdis⟩ := deleteWordRight_out f m m1 b1 hpre hw
      refine ⟨hout ▸ hp, hout ▸ hcfg, ?_⟩
      cases hdis with
      | inl he => exact Or.inl (hout ▸ he ▸ rfl)
      | inr hc => exact Or.inr (hout ▸ hc)
    case neg =>
      rw [if_neg hd] at h
      by_cases hb : runes = ['b']
      case pos =>
        rw [if_pos hb] at h
        simp only [Option.bind_eq_some, Option.pure_def, Option.some_inj] at h
        obtain ⟨⟨m1, b1⟩, hw, hout⟩ := h
        obtain ⟨hp, hcfg, hdis⟩ := wordLeft_out f m m1 b1 hpre hw
        refine ⟨hout ▸ hp, hout ▸ hcfg, ?_⟩
        cases hdis with
        | inl he => exact Or.inl (hout ▸ he ▸ rfl)
        | inr hc => exact Or.inr (hout ▸ hc)
      case neg =>
        rw [if_neg hb] at h
        by_cases hf2 : runes = ['f']
        case pos =>
          rw [if_pos hf2] at h
          simp only [Option.bind_eq_some, Option.pure_def, Option.some_inj] at h
          obtain ⟨⟨m1, b1⟩, hw, hout⟩ := h
          obtain ⟨hp, hcfg, hdis⟩ := wordRight_out f m m1 b1 hpre hw
          refine ⟨hout ▸ hp, hout ▸ hcfg, ?_⟩
          cases hdis with
          | inl he => exact Or.inl (hout ▸ he ▸ rfl)
          | inr hc => exact Or.inr (hout ▸ hc)
        case neg =>
          rw [if_neg hf2] at h
          exact insert_out f m m' runes hpre h
  case neg =>
    rw [if_neg halt] at h
    exact insert_out f m m' runes hpre h

theorem kc_delete_out (f : Nat) (m m' : Model) (alt : Bool)
    (runes : List Char) (hpre : Pre m)
    (h : keyCaseF f m KeyType.delete alt runes = some m') :
    Pre m' ∧ SameCfg m m' ∧ (m'.value = m.value ∨ ColInv m') := by
  unfold keyCaseF at h
  simp only [Option.bind_eq_bind, Option.bind_eq_some, Option.pure_def,
    Option.some_inj] at h
  obtain ⟨m1, hcb, h⟩ := h
  obtain ⟨hpre1, hci1, hcfg1, hval1, hrow1⟩ := hcb_inv m m1 hpre hcb
  obtain ⟨rows, hv, r, hgr, h⟩ := h
  by_cases hg : glen r > 0 ∧ m1.col < glen r
  case pos =>
    rw [if_pos hg] at h
    simp only [Option.bind_eq_some, Option.pure_def, Option.some_inj] at h
    obtain ⟨a, hta, b2, hdb, rows2, hset, hout⟩ := h
    obtain ⟨hc0, hcle⟩ := colInv_bound hci1 hv hgr
    obtain ⟨_, _, ha⟩ := gtake_eq_some hta
    obtain ⟨_, hdle, hb⟩ := gdrop_eq_some hdb
    refine ⟨hout ▸ pre_set_row hpre1 hv hset,
      hout ▸ sameCfg_trans hcfg1 (⟨rfl, rfl, rfl, rfl, rfl, rfl, rfl⟩ :
        SameCfg m1 { m1 with value := some rows2 }), Or.inr (hout ▸ ?_)⟩
    refine ⟨hc0, a ++ b2, ?_, ?_⟩
    · show gget rows2 m1.row = some (a ++ b2)
      exact gget_gset_self hset
    · show m1.col ≤ glen (a ++ b2)
      rw [glen_append, ha, hb, glen_take r m1.col hc0 (by omega),
        glen_drop r (m1.col + 1) (by omega) hdle]
      omega
  case neg =>
    rw [if_neg hg] at h
    rw [Option.some_inj] at h
    exact ⟨h ▸ hpre1, h ▸ hcfg1, Or.inl (h ▸ hval1)⟩

theorem keyCase_out (f : Nat) (m m' : Model) (t : KeyType) (alt : Bool)
    (runes : List Char) (hpre : Pre m) (hcol : 0 ≤ m.col)
    (h : keyCaseF f m t alt runes = some m') :
    Pre m' ∧ SameCfg m m' ∧ (m'.value = m.value ∨ ColInv m') := by
  cases t
  case backspace =>
    obtain ⟨hp, hcfg, hd⟩ := kc_backspace_out f m m' alt runes hpre hcol h
    exact ⟨hp, hcfg, hd⟩
  case up =>
    unfold keyCaseF at h
    simp only [Option.pure_def, Option.some_inj] at h
    exact ⟨h ▸ lineUp_pre m hpre, h ▸ lineUp_cfg m, Or.inl (h ▸ lineUp_value m)⟩
  case down =>
    unfold keyCaseF at h
    simp only [Option.pure_def, Option.some_inj] at h
    exact ⟨h ▸ lineDown_pre m hpre, h ▸ lineDown_cfg m,
      Or.inl (h ▸ lineDown_value m)⟩
  case enter => exact kc_enter_out f m m' alt runes hpre h
  case left =>
    obtain ⟨hp, hcfg, hd⟩ := kc_left_out f m m' alt runes hpre h
    refine ⟨hp, hcfg, ?_⟩
    cases hd with
    | inl he => exact Or.inl (he ▸ rfl)
    | inr hc => exact Or.inr hc
  case ctrlB =>
    obtain ⟨hp, hcfg, hd⟩ := kc_left_out f m m' alt runes hpre h
    refine ⟨hp, hcfg, ?_⟩
    cases hd with
    | inl he => exact Or.inl (he ▸ rfl)
    | inr hc => exact Or.inr hc
  case right =>
    obtain ⟨hp, hcfg, hd⟩ := kc_right_out f m m' alt runes hpre h
    refine ⟨hp, hcfg, ?_⟩
    cases hd with
    | inl he => exact Or.inl (he ▸ rfl)
    | inr hc => exact Or.inr hc
  case ctrlF =>
    obtain ⟨hp, hcfg, hd⟩ := kc_right_out f m m' alt runes hpre h
    refine ⟨hp, hcfg, ?_⟩
    cases hd with
    | inl he => exact Or.inl (he ▸ rfl)
    | inr hc => exact Or.inr hc
  case ctrlW =>
    unfold keyCaseF at h
    simp only [Option.bind_eq_bind, Option.bind_eq_some, Option.pure_def,
      Option.some_inj] at h
    obtain ⟨m1, hcb, ⟨m2, b2⟩, hw, hout⟩ := h
    obtain ⟨hpre1, hci1, hcfg1, hval1, hrow1⟩ := hcb_inv m m1 hpre hcb
    obtain ⟨hp, hcfg, hd⟩ := deleteWordLeft_out f m1 m2 b2 hpre1 hw
    refine ⟨hout ▸ hp, hout ▸ sameCfg_trans hcfg1 hcfg, ?_⟩
    cases hd with
    | inl he => exact Or.inl (hout ▸ he ▸ hval1)
    | inr hc => exact Or.inr (hout ▸ hc)
  case home =>
    unfold keyCaseF at h
    simp only [Option.bind_eq_bind, Option.bind_eq_some, Option.pure_def,
      Option.some_inj] at h
    obtain ⟨⟨m1, b1⟩, hsc, hout⟩ := h
    obtain ⟨hp, hcv, hcfg⟩ := setCursor_inv f m m1 0 b1 hpre hsc
    exact ⟨hout ▸ hp, hout ▸ hcfg, Or.inr (hout ▸ hcv)⟩
  case ctrlA =>
    unfold keyCaseF at h
    simp only [Option.bind_eq_bind, Option.bind_eq_some, Option.pure_def,
      Option.some_inj] at h
    obtain ⟨⟨m1, b1⟩, hsc, hout⟩ := h
    obtain ⟨hp, hcv, hcfg⟩ := setCursor_inv f m m1 0 b1 hpre hsc
    exact ⟨hout ▸ hp, hout ▸ hcfg, Or.inr (hout ▸ hcv)⟩
  case delete => exact kc_delete_out f m m' alt runes hpre h
  case ctrlD => exact kc_delete_out f m m' alt runes hpre h
  case ctrlE =>
    unfold keyCaseF at h
    simp only [Option.bind_eq_bind, Option.bind_eq_some, Option.pure_def,
      Option.some_inj] at h
    obtain ⟨⟨m1, b1⟩, hce, hout⟩ := h
    obtain ⟨hp, hcv, hcfg⟩ := cursorEnd_inv f m m1 b1 hpre hce
    exact ⟨hout ▸ hp, hout ▸ hcfg, Or.inr (hout ▸ hcv)⟩
  case endKey =>
    unfold keyCaseF at h
    simp only [Option.bind_eq_bind, Option.bind_eq_some, Option.pure_def,
      Option.some_inj] at h
    obtain ⟨⟨m1, b1⟩, hce, hout⟩ := h
    obtain ⟨hp, hcv, hcfg⟩ := cursorEnd_inv f m m1 b1 hpre hce
    exact ⟨hout ▸ hp, hout ▸ hcfg, Or.inr (hout ▸ hcv)⟩
  case ctrlK =>
    unfold keyCaseF at h
    simp only [Option.bind_eq_bind, Option.bind_eq_some, Option.pure_def,
      Option.some_inj] at h
    obtain ⟨m1, hcb, ⟨m2, b2⟩, hda, hout⟩ := h
    obtain ⟨hpre1, hci1, hcfg1, hval1, hrow1⟩ := hcb_inv m m1 hpre hcb
    obtain ⟨hp, hcfg, hcv⟩ := deleteAfterCursor_inv f m1 m2 b2 hpre1 hda
    exact ⟨hout ▸ hp, hout ▸ sameCfg_trans hcfg1 hcfg, Or.inr (hout ▸ hcv)⟩
  case ctrlU =>
    unfold keyCaseF at h
    simp only [Option.bind_eq_bind, Option.bind_eq_some, Option.pure_def,
      Option.some_inj] at h
    obtain ⟨m1, hcb, ⟨m2, b2⟩, hdb, hout⟩ := h
    obtain ⟨hpre1, hci1, hcfg1, hval1, hrow1⟩ := hcb_inv m m1 hpre hcb
    obtain ⟨hp, hcfg, hcv⟩ := deleteBeforeCursor_inv f m1 m2 b2 hpre1 hdb
    exact ⟨hout ▸ hp, hout ▸ sameCfg_trans hcfg1 hcfg, Or.inr (hout ▸ hcv)⟩
  case ctrlN =>
    unfold keyCaseF at h
    simp only [Option.pure_def, Option.some_inj] at h
    exact ⟨h ▸ lineDown_pre m hpre, h ▸ lineDown_cfg m,
      Or.inl (h ▸ lineDown_value m)⟩
  case ctrlP =>
    unfold keyCaseF at h
    simp only [Option.pure_def, Option.some_inj] at h
    exact ⟨h ▸ lineUp_pre m hpre, h ▸ lineUp_cfg m, Or.inl (h ▸ lineUp_value m)⟩
  case runes => exact kc_runes_out f m m' alt runes hpre h
  case space => exact kc_runes_out f m m' alt runes hpre h
  case ctrlV =>
    unfold keyCaseF at h
    simp only [Option.pure_def, Option.some_inj] at h
    exact ⟨h ▸ hpre, h ▸ sameCfg_refl m, Or.inl (h ▸ rfl)⟩
  case other =>
    unfold keyCaseF at h
    simp only [Option.pure_def, Option.some_inj] at h
    exact ⟨h ▸ hpre, h ▸ sameCfg_refl m, Or.inl (h ▸ rfl)⟩

end Textinput

namespace Textinput

theorem overflowAdvance_value (f : Nat) (m m' : Model)
    (rows : List (List Char)) (hv : m.value = some rows)
    (hlen : glen rows = m.LineLimit) (hr0 : 0 ≤ m.row)
    (hrlt : m.row < m.LineLimit - 1) (hW1 : 1 ≤ m.Width)
    (hLL : 1 < m.LineLimit) (hfit : rowsFitB m.Width rows = true)
    (h : overflowAdvance f m = some m') : m'.value = some rows := by
  unfold overflowAdvance at h
  rw [lineDown_lt hrlt] at h
  simp only [Option.bind_eq_bind, Option.pure_def] at h
  rw [show ({ m with
    row := m.row + 1,
    viewport := { m.viewport with
      yOffset := m.row + 1 - Int.tdiv m.Height 2 } } : Model).value =
    m.value from rfl, hv] at h
  simp only [Option.some_bind] at h
  rw [show (gget rows ({ m with
    row := m.row + 1,
    viewport := { m.viewport with
      yOffset := m.row + 1 - Int.tdiv m.Height 2 } } : Model).row) =
    gget rows (m.row + 1) from rfl] at h
  rw [gget_getD [] (by omega) (by omega)] at h
  simp only [Option.some_bind] at h
  rw [clamp_of_mem 0 0 _ le_rfl (glen_nonneg _)] at h
  rw [Option.bind_eq_some] at h
  obtain ⟨m4, hrec, hm'⟩ := h
  simp only [Option.some_inj] at hm'
  match f with
  | 0 => exact Option.noConfusion hrec
  | f2 + 1 =>
    obtain ⟨rows'', hwp, hm4⟩ := overflow_nomove_some hrec rfl hLL (by
      intro hcontra
      have hx : m.Width < 0 := hcontra.1
      omega)
    have hid : wrapPass m.Width rows = some rows :=
      wrapPass_id (by omega) hfit
    rw [show (({ m with
      row := m.row + 1,
      viewport := { m.viewport with
        yOffset := m.row + 1 - Int.tdiv m.Height 2 },
      col := (0 : Int) } : Model).Width) = m.Width from rfl] at hwp
    rw [hid] at hwp
    rw [Option.some_inj] at hwp
    subst hwp
    subst hm4
    subst hm'
    rfl

/-- Under the fitting invariant, the overflow pass never rewrites the
buffer. -/
theorem overflow_value_id (f : Nat) (m m' : Model) (hpre : Pre m)
    (hfit : 1 < m.LineLimit → rowsFitB m.Width (rowsD m) = true)
    (h : handleOverflowF f m = some m') : m'.value = m.value := by
  obtain ⟨⟨rows, hv⟩, hlen, hr0, hr1, hWmk⟩ := hpre
  have hrowsD : rowsD m = rows := by simp [rowsD, hv]
  rw [hrowsD] at hlen
  match f with
  | 0 => exact Option.noConfusion h
  | f + 1 =>
    by_cases hLL : 1 < m.LineLimit
    case pos =>
      have hW1 : 1 ≤ m.Width := hWmk hLL
      have hfit' : rowsFitB m.Width rows = true := hrowsD ▸ hfit hLL
      rw [handleOverflow_succ_multi f m rows hv hLL] at h
      rw [wrapPass_id (by omega) hfit'] at h
      simp only [Option.some_bind] at h
      split at h
      · next hbr =>
        have hrlt : m.row < m.LineLimit - 1 := by
          have := hbr.2
          omega
        have := overflowAdvance_value f ({ m with value := some rows }) m'
          rows rfl (by
            show glen rows = m.LineLimit
            exact hlen)
          hr0 hrlt hW1 hLL hfit' h
        rw [this, hv]
      · next hbr =>
        rw [Option.some_inj] at h
        rw [← h, hv]
    case neg =>
      obtain ⟨a, b, hm'⟩ := horizontal_shape (f + 1) m m' (by
        rw [show handleOverflowF (f + 1) m =
          handleHorizontalOverflowM (f + 1) m from by
            simp only [handleOverflowF]
            rw [if_neg (by omega)]] at h
        exact h)
      rw [hm']

end Textinput

namespace Textinput

/-- Reachable-state well-formedness for the cursor-column analysis: the
structural invariants, a nonnegative column, and a buffer whose non-final
rows fit the configured width (what the wrapping pass establishes). -/
def WF (m : Model) : Prop :=
  Pre m ∧ 0 ≤ m.col ∧
    (1 < m.LineLimit → rowsFitB m.Width (rowsD m) = true)

theorem update_key_colInv (f : Nat) (m m' : Model) (c : Cmd) (t : KeyType)
    (alt : Bool) (runes : List Char) (hwf : WF m)
    (h : updateF f m (Msg.key t alt runes) = some (m', c))
    (hne : t ≠ KeyType.ctrlV)
    (hval : m'.value ≠ m.value) : ColInv m' := by
  obtain ⟨hpre, hcol, hfit⟩ := hwf
  obtain ⟨⟨rows0, hv0⟩, hlen, hr0, hr1, hW⟩ := hpre
  have hpre : Pre m := ⟨⟨rows0, hv0⟩, hlen, hr0, hr1, hW⟩
  unfold updateF at h
  by_cases hfoc : ¬ m.focus = true
  case pos =>
    rw [if_pos hfoc] at h
    simp only [Option.some_inj, Prod.mk.injEq] at h
    exfalso
    apply hval
    rw [← h.1]
  case neg =>
    rw [if_neg hfoc] at h
    rw [hv0] at h
    simp only [Option.bind_eq_bind, Option.some_bind, Option.pure_def] at h
    cases t
    case ctrlV =>
      exact absurd rfl hne
    all_goals {
      simp only [Option.bind_eq_bind, Option.bind_eq_some, Option.pure_def,
        Option.some_inj, Prod.mk.injEq] at h
      obtain ⟨m1, hkc, m2, hov, hout, _⟩ := h
      obtain ⟨hpre1, hcfg1, hd⟩ := keyCase_out f m m1 _ _ _ hpre hcol hkc
      cases hd with
      | inl hveq =>
        exfalso
        apply hval
        have hv2 : m2.value = m1.value := by
          apply overflow_value_id f m1 m2 hpre1 _ hov
          intro hLL1
          rw [hcfg1.1] at hLL1
          rw [hcfg1.2.1]
          have : rowsD m1 = rowsD m := by
            unfold rowsD
            rw [hveq]
          rw [this]
          exact hfit hLL1
        rw [← hout, hv2, hveq]
      | inr hci1 =>
        obtain ⟨hp2, hci2, hcfg2⟩ := overflow_colInv f m1 m2 hpre1 hci1 hov
        exact hout ▸ hci2
    }

end Textinput

namespace Textinput

theorem handlePaste_out (f : Nat) (m m' : Model) (b : Bool) (v : List Char)
    (hpre : Pre m) (h : handlePasteF f m v = some (m', b)) :
    Pre m' ∧ SameCfg m m' ∧ (m' = m ∨ ColInv m') := by
  unfold handlePasteF at h
  simp only [Option.bind_eq_bind, Option.bind_eq_some] at h
  obtain ⟨rows, hv, h⟩ := h
  by_cases hCL : m.CharLimit > 0
  case pos =>
    rw [if_pos hCL] at h
    simp only [Option.bind_eq_some, Option.pure_def, Option.some_inj] at h
    obtain ⟨r, hgr, y, hy, h⟩ := h
    subst hy
    by_cases hg : m.CharLimit > 0 ∧ m.CharLimit - glen r ≤ 0
    case pos =>
      rw [if_pos hg] at h
      rw [Option.some_inj] at h
      rw [Prod.mk.injEq] at h
      exact ⟨h.1 ▸ hpre, h.1 ▸ sameCfg_refl m, Or.inl h.1.symm⟩
    case neg =>
      rw [if_neg hg] at h
      simp only [Option.bind_eq_some] at h
      obtain ⟨hd, hhd, tailSrc, hts, src, hsrc, ⟨rows2, col2, av2⟩, hpl, u,
        hgu, cur, hcur, rows3, hset, hsc⟩ := h
      have hplen : rows2.length = rows.length :=
        pasteLoop_length _ _ _ _ _ _ _ _ _ _ hpl
      have hpremid : Pre { m with value := some rows2, col := col2 } := by
        obtain ⟨_, hlen, h0, h1, hWk⟩ := hpre
        refine ⟨⟨rows2, rfl⟩, ?_, h0, h1, hWk⟩
        show glen rows2 = m.LineLimit
        have hx : glen (rowsD m) = m.LineLimit := hlen
        rw [show rowsD m = rows from by simp [rowsD, hv]] at hx
        simp only [glen, hplen]
        simpa only [glen] using hx
      obtain ⟨hp, hcv, hcfg⟩ := setCursor_inv f _ m' _ b
        (pre_set_row hpremid rfl hset) hsc
      refine ⟨hp, sameCfg_trans (⟨rfl, rfl, rfl, rfl, rfl, rfl, rfl⟩ :
        SameCfg m { { m with value := some rows2, col := col2 } with
          value := some rows3 }) hcfg, Or.inr hcv⟩
  case neg =>
    rw [if_neg hCL] at h
    simp only [Option.bind_eq_some, Option.pure_def, Option.some_inj] at h
    obtain ⟨y, hy, h⟩ := h
    subst hy
    by_cases hg : m.CharLimit > 0 ∧ (0 : Int) ≤ 0
    case pos =>
      exact absurd hg.1 hCL
    case neg =>
      rw [if_neg hg] at h
      simp only [Option.bind_eq_some] at h
      obtain ⟨hd, hhd, tailSrc, hts, src, hsrc, ⟨rows2, col2, av2⟩, hpl, u,
        hgu, cur, hcur, rows3, hset, hsc⟩ := h
      have hplen : rows2.length = rows.length :=
        pasteLoop_length _ _ _ _ _ _ _ _ _ _ hpl
      have hpremid : Pre { m with value := some rows2, col := col2 } := by
        obtain ⟨_, hlen, h0, h1, hWk⟩ := hpre
        refine ⟨⟨rows2, rfl⟩, ?_, h0, h1, hWk⟩
        show glen rows2 = m.LineLimit
        have hx : glen (rowsD m) = m.LineLimit := hlen
        rw [show rowsD m = rows from by simp [rowsD, hv]] at hx
        simp only [glen, hplen]
        simpa only [glen] using hx
      obtain ⟨hp, hcv, hcfg⟩ := setCursor_inv f _ m' _ b
        (pre_set_row hpremid rfl hset) hsc
      refine ⟨hp, sameCfg_trans (⟨rfl, rfl, rfl, rfl, rfl, rfl, rfl⟩ :
        SameCfg m { { m with value := some rows2, col := col2 } with
          value := some rows3 }) hcfg, Or.inr hcv⟩

end Textinput

namespace Textinput

/-- C9 (amended): immediately after any mutating operation processed by
Update — a non-paste-shortcut key message or a clipboard paste delivery —
that actually modified the buffer, the cursor column satisfies
0 ≤ col ≤ length(row[cursor.row]).  The original claim fails for aborted
mutations that leave the buffer unchanged (see the Enter counterexample),
where the column may keep a transient overhang. -/
theorem c9_column_invariant_after_mutation (f : Nat) (m m' : Model)
    (c : Cmd) (msg : Msg) (hwf : WF m)
    (hmut : (∃ t alt runes, msg = Msg.key t alt runes ∧ t ≠ KeyType.ctrlV) ∨
      ∃ s, msg = Msg.pasteText s)
    (h : updateF f m msg = some (m', c))
    (hval : m'.value ≠ m.value) : ColInv m' := by
  cases hmut with
  | inl hk =>
    obtain ⟨t, alt, runes, rfl, hne⟩ := hk
    exact update_key_colInv f m m' c t alt runes hwf h hne hval
  | inr hp =>
    obtain ⟨s, rfl⟩ := hp
    obtain ⟨hpre, hcol, hfit⟩ := hwf
    obtain ⟨⟨rows0, hv0⟩, hlen, hr0, hr1, hW⟩ := hpre
    have hpre : Pre m := ⟨⟨rows0, hv0⟩, hlen, hr0, hr1, hW⟩
    unfold updateF at h
    by_cases hfoc : ¬ m.focus = true
    case pos =>
      rw [if_pos hfoc] at h
      simp only [Option.some_inj, Prod.mk.injEq] at h
      exfalso
      apply hval
      rw [← h.1]
    case neg =>
      rw [if_neg hfoc] at h
      rw [hv0] at h
      simp only [Option.bind_eq_bind, Option.some_bind, Option.pure_def] at h
      simp only [Option.bind_eq_bind, Option.bind_eq_some, Option.pure_def,
        Option.some_inj, Prod.mk.injEq] at h
      obtain ⟨⟨m1, b1⟩, hpaste, m2, hov, hout, _⟩ := h
      obtain ⟨hpre1, hcfg1, hd⟩ := handlePaste_out f m m1 b1 s hpre hpaste
      cases hd with
      | inl hmeq =>
        exfalso
        apply hval
        have hv2 : m2.value = m1.value := by
          apply overflow_value_id f m1 m2 hpre1 _ hov
          intro hLL1
          rw [hcfg1.1] at hLL1
          rw [hcfg1.2.1]
          rw [show rowsD m1 = rowsD m from by rw [hmeq]]
          exact hfit hLL1
        rw [← hout, hv2, hmeq]
      | inr hci1 =>
        obtain ⟨hp2, hci2, hcfg2⟩ := overflow_colInv f m1 m2 hpre1 hci1 hov
        exact hout ▸ hci2

end Textinput

namespace Textinput

/-- A focused two-line model whose cursor sits at the end of a longer
first row; pressing Enter aborts (the last line is nonempty) after
lineDown has already moved the cursor row. -/
def c9Model : Model :=
  { Err := none
    echoMode := EchoMode.normal
    CharLimit := 0
    Width := 10
    LineLimit := 2
    Height := 2
    id := 0
    blinkTag := 0
    value := some [['a', 'b', 'c'], ['x']]
    focus := true
    blink := false
    col := 3
    row := 0
    offset := 0
    offsetRight := 0
    cursorMode := CursorMode.blinkMode
    viewport := { width := 10, height := 2, yOffset := 0 } }

/-- The model after the aborted Enter on c9Model. -/
def c9Res : Model :=
  { Err := none
    echoMode := EchoMode.normal
    CharLimit := 0
    Width := 10
    LineLimit := 2
    Height := 2
    id := 0
    blinkTag := 0
    value := some [['a', 'b', 'c'], ['x']]
    focus := true
    blink := false
    col := 3
    row := 1
    offset := 0
    offsetRight := 0
    cursorMode := CursorMode.blinkMode
    viewport := { width := 10, height := 2, yOffset := 0 } }

/-- C9 counterexample: Enter is a mutating operation of the claim's list,
yet on a well-formed state the aborted line-split leaves the cursor on
row 1 with column 3 > length(row 1) = 1, violating
0 ≤ col ≤ length(row[row]) immediately after the operation. -/
theorem c9_enter_leaves_column_overhang :
    WF c9Model ∧
    ∃ p, updateF 20 c9Model (Msg.key KeyType.enter false []) = some p ∧
      p.1.row = 1 ∧ p.1.col = 3 ∧
      gget (rowsD p.1) p.1.row = some ['x'] ∧ ¬ p.1.col ≤ glen ['x'] := by
  constructor
  · exact ⟨⟨⟨_, rfl⟩, by decide, by decide, by decide, by decide⟩,
      by decide, by decide⟩
  · refine ⟨(c9Res, Cmd.nilCmd), by decide, rfl, rfl, by decide, by decide⟩

/-- A focused single-line model: typing a character mutates the buffer. -/
def c9wModel : Model :=
  { Err := none
    echoMode := EchoMode.normal
    CharLimit := 0
    Width := 0
    LineLimit := 1
    Height := 1
    id := 0
    blinkTag := 0
    value := some [['a']]
    focus := true
    blink := false
    col := 1
    row := 0
    offset := 0
    offsetRight := 0
    cursorMode := CursorMode.blinkMode
    viewport := { width := 0, height := 1, yOffset := 0 } }

/-- The model after typing the rune b into c9wModel. -/
def c9wRes : Model :=
  { Err := none
    echoMode := EchoMode.normal
    CharLimit := 0
    Width := 0
    LineLimit := 1
    Height := 1
    id := 0
    blinkTag := 0
    value := some [['a', 'b']]
    focus := true
    blink := false
    col := 2
    row := 0
    offset := 0
    offsetRight := 2
    cursorMode := CursorMode.blinkMode
    viewport := { width := 0, height := 1, yOffset := 0 } }

/-- C9 witness: the amended theorem applied to a concrete buffer-changing
insert, whose result satisfies the column invariant. -/
theorem c9_column_invariant_witness : ColInv c9wRes :=
  c9_column_invariant_after_mutation 20 c9wModel c9wRes Cmd.nilCmd
    (Msg.key KeyType.runes false ['b'])
    ⟨⟨⟨_, rfl⟩, by decide, by decide, by decide, by decide⟩,
      by decide, by decide⟩
    (Or.inl ⟨KeyType.runes, false, ['b'], rfl, by decide⟩)
    (by decide) (by decide)

end Textinput

namespace Textinput

theorem lineUp_gt {m : Model} (h : 0 < m.row) :
    lineUp m = { m with
      row := m.row - 1,
      viewport := { m.viewport with
        yOffset := m.row - 1 - Int.tdiv m.Height 2 } } := by
  unfold lineUp setYOffset
  rw [if_pos h]

theorem rowsFitB_bound {w : Int} :
    ∀ {rows : List (List Char)}, rowsFitB w rows = true →
      ∀ i : Nat, i + 1 < rows.length → glen (rows.getD i []) ≤ w := by
  intro rows
  induction rows with
  | nil =>
    intro _ i hi
    simp at hi
  | cons x rest ih =>
    intro hfit i hi
    match rest with
    | [] => simp at hi
    | y :: rest2 =>
      simp only [rowsFitB, Bool.and_eq_true, decide_eq_true_eq] at hfit
      match i with
      | 0 => exact hfit.1
      | i + 1 =>
        apply ih hfit.2
        simp only [List.length_cons] at hi ⊢
        omega

theorem rowsFitB_of_bounds {w : Int} :
    ∀ {rows : List (List Char)},
      (∀ i : Nat, i + 1 < rows.length → glen (rows.getD i []) ≤ w) →
      rowsFitB w rows = true := by
  intro rows
  induction rows with
  | nil => intro _; rfl
  | cons x rest ih =>
    intro hb
    match rest with
    | [] => rfl
    | y :: rest2 =>
      simp only [rowsFitB, Bool.and_eq_true, decide_eq_true_eq]
      refine ⟨?_, ih ?_⟩
      · have := hb 0 (by simp only [List.length_cons]; omega)
        simpa using this
      · intro i hi
        have := hb (i + 1) (by simp only [List.length_cons] at hi ⊢; omega)
        simpa using this

theorem shiftUpLoop_shift :
    ∀ (fuel : Nat) (rows rows' : List (List Char)) (start stop : Int),
      fuel = (stop - start).toNat →
      shiftUpLoop fuel rows start stop = some rows' →
      (∀ j : Int, start ≤ j → j < stop → gget rows' j = gget rows (j + 1)) ∧
        (∀ j : Int, stop ≤ j → gget rows' j = gget rows j) := by
  intro fuel
  induction fuel with
  | zero =>
    intro rows rows' start stop hf h
    unfold shiftUpLoop at h
    split at h
    · exact Option.noConfusion h
    · next hc =>
      rw [Option.some_inj] at h
      subst h
      constructor
      · intro j h1 h2
        omega
      · intro j _
        rfl
  | succ f ih =>
    intro rows rows' start stop hf h
    unfold shiftUpLoop at h
    split at h
    · next hc =>
      simp only [Option.bind_eq_bind, Option.bind_eq_some] at h
      obtain ⟨x, hx, rows1, hset, hrec⟩ := h
      have hf' : f = (stop - (start + 1)).toNat := by omega
      obtain ⟨hsh, hkeepge⟩ := ih _ _ _ _ hf' hrec
      obtain ⟨hkeeplen, hkeeplt⟩ := shiftUpLoop_facts _ _ _ _ _ hrec
      constructor
      · intro j h1 h2
        by_cases hj : j = start
        case pos =>
          subst hj
          rw [hkeeplt j (by omega)]
          rw [gget_gset_self hset]
          rw [← hx]
        case neg =>
          rw [hsh j (by omega) h2]
          exact gget_gset_other hset (by omega)
      · intro j hj
        rw [hkeepge j hj]
        exact gget_gset_other hset (by omega)
    · next hc =>
      omega

theorem overflow_proj (f : Nat) (m m' : Model) (rows : List (List Char))
    (hv : m.value = some rows)
    (hfit : 1 < m.LineLimit → rowsFitB m.Width rows = true)
    (hW : 1 < m.LineLimit → 1 ≤ m.Width)
    (hadv : 1 < m.LineLimit →
      ¬(m.Width < m.col ∧ m.row ≠ m.LineLimit - 1))
    (h : handleOverflowF (f + 1) m = some m') :
    m'.value = m.value ∧ m'.row = m.row ∧ m'.col = m.col := by
  by_cases hLL : 1 < m.LineLimit
  case pos =>
    obtain ⟨rs', hwp, hm'⟩ := overflow_nomove_some h hv hLL (hadv hLL)
    rw [wrapPass_id (by have := hW hLL; omega) (hfit hLL)] at hwp
    rw [Option.some_inj] at hwp
    subst hwp
    subst hm'
    exact ⟨hv.symm, rfl, rfl⟩
  case neg =>
    rw [show handleOverflowF (f + 1) m =
      handleHorizontalOverflowM (f + 1) m from by
        simp only [handleOverflowF]
        rw [if_neg (by omega)]] at h
    obtain ⟨a, b, hm'⟩ := horizontal_shape (f + 1) m m' h
    subst hm'
    exact ⟨rfl, rfl, rfl⟩

theorem setCursor_proj (f : Nat) (m m' : Model) (b : Bool) (c : Int)
    (rows : List (List Char)) (r : List Char)
    (hv : m.value = some rows) (hgr : gget rows m.row = some r)
    (hfit : 1 < m.LineLimit → rowsFitB m.Width rows = true)
    (hW : 1 < m.LineLimit → 1 ≤ m.Width)
    (hadv : 1 < m.LineLimit →
      ¬(m.Width < clamp c 0 (glen r) ∧ m.row ≠ m.LineLimit - 1))
    (h : setCursorF (f + 1) m c = some (m', b)) :
    m'.col = clamp c 0 (glen r) ∧ m'.value = m.value ∧ m'.row = m.row := by
  unfold setCursorF at h
  rw [hv] at h
  simp only [Option.bind_eq_bind, Option.some_bind] at h
  rw [hgr] at h
  simp only [Option.some_bind, Option.pure_def, Option.bind_eq_some,
    Option.some_inj, Prod.mk.injEq] at h
  obtain ⟨m4, hov, hm', _⟩ := h
  have hproj := overflow_proj f ({ m with
    value := some rows,
    col := clamp c 0 (glen r) }) m4 rows rfl hfit hW (by
      intro hLL
      show ¬(m.Width < clamp c 0 (glen r) ∧ m.row ≠ m.LineLimit - 1)
      exact hadv hLL) hov
  rw [← hm']
  refine ⟨?_, ?_, ?_⟩
  · show m4.col = clamp c 0 (glen r)
    exact hproj.2.2
  · show m4.value = m.value
    exact hproj.1.trans hv.symm
  · show m4.row = m.row
    exact hproj.2.1

end Textinput

namespace Textinput

/-- C7 (amended): in a masked echo mode, on a state whose buffer fits the
configured width (so the overflow pass inside setCursor is the identity
on the buffer), wordLeft from a positive column jumps to column 0 and
wordRight from inside the row jumps to the row's length, both leaving the
buffer and the cursor row unchanged.  Without the fitting hypothesis the
buffer can be rewrapped (see the counterexample). -/
theorem c7_masked_word_nav (f : Nat) (m : Model) (rows : List (List Char))
    (r : List Char) (hpre : Pre m) (hv : m.value = some rows)
    (hgr : gget rows m.row = some r)
    (hfit : 1 < m.LineLimit → rowsFitB m.Width rows = true)
    (hmask : ¬ m.echoMode = EchoMode.normal) (hne : glen r ≠ 0) :
    (∀ m' b, 0 < m.col → wordLeftF (f + 1) m = some (m', b) →
      m'.col = 0 ∧ m'.value = m.value ∧ m'.row = m.row) ∧
    (∀ m' b, m.col < glen r → wordRightF (f + 1) m = some (m', b) →
      m'.col = glen r ∧ m'.value = m.value ∧ m'.row = m.row) := by
  obtain ⟨⟨rows0, hv0⟩, hlen, hr0, hr1, hW⟩ := hpre
  have hlen' : glen rows = m.LineLimit := by
    rw [show rowsD m = rows from by simp [rowsD, hv]] at hlen
    exact hlen
  constructor
  · intro m' b hcol h
    unfold wordLeftF at h
    rw [if_neg (by omega)] at h
    rw [hv] at h
    simp only [Option.bind_eq_bind, Option.some_bind] at h
    rw [hgr] at h
    simp only [Option.some_bind] at h
    rw [if_neg hne, if_pos hmask] at h
    unfold cursorStartF at h
    obtain ⟨hc, hval, hrow⟩ := setCursor_proj f m m' b 0 rows r hv hgr
      hfit hW (by
        intro hLL
        rw [clamp_of_mem 0 0 (glen r) le_rfl (glen_nonneg r)]
        intro hcontra
        have := hW hLL
        omega) h
    rw [clamp_of_mem 0 0 (glen r) le_rfl (glen_nonneg r)] at hc
    exact ⟨hc, hval, hrow⟩
  · intro m' b hcol h
    unfold wordRightF at h
    rw [hv] at h
    simp only [Option.bind_eq_bind, Option.some_bind] at h
    rw [hgr] at h
    simp only [Option.some_bind] at h
    rw [if_neg (by omega), if_pos hmask] at h
    unfold cursorEndF at h
    rw [hv] at h
    simp only [Option.bind_eq_bind, Option.some_bind] at h
    rw [hgr] at h
    simp only [Option.some_bind] at h
    obtain ⟨hc, hval, hrow⟩ := setCursor_proj f m m' b (glen r) rows r hv hgr
      hfit hW (by
        intro hLL
        rw [clamp_of_mem (glen r) 0 (glen r) (glen_nonneg r) le_rfl]
        intro hcontra
        obtain ⟨hwlt, hrne⟩ := hcontra
        have hidx : m.row.toNat + 1 < rows.length := by
          have h1 : m.row < m.LineLimit - 1 := by omega
          have h2 : (rows.length : Int) = m.LineLimit := hlen'
          omega
        have hb := rowsFitB_bound (hfit hLL) m.row.toNat hidx
        have hget : rows.getD m.row.toNat [] = r := by
          have hx := gget_getD (l := rows) (i := m.row) [] hr0 (by
            rw [hlen']
            omega)
          rw [hgr] at hx
          exact (Option.some_inj.mp hx).symm
        rw [hget] at hb
        omega) h
    rw [clamp_of_mem (glen r) 0 (glen r) (glen_nonneg r) le_rfl] at hc
    exact ⟨hc, hval, hrow⟩

end Textinput

namespace Textinput

/-- A masked two-line model whose first row (2 chars) exceeds Width = 1:
word navigation's jump re-enters the overflow pass, which rewraps. -/
def c7Model : Model :=
  { Err := none
    echoMode := EchoMode.password
    CharLimit := 0
    Width := 1
    LineLimit := 2
    Height := 2
    id := 0
    blinkTag := 0
    value := some [['a', 'b'], []]
    focus := true
    blink := false
    col := 1
    row := 0
    offset := 0
    offsetRight := 0
    cursorMode := CursorMode.blinkMode
    viewport := { width := 1, height := 2, yOffset := 0 } }

/-- The result of wordLeft on c7Model: the buffer has been rewrapped. -/
def c7Res : Model :=
  { Err := none
    echoMode := EchoMode.password
    CharLimit := 0
    Width := 1
    LineLimit := 2
    Height := 2
    id := 0
    blinkTag := 0
    value := some [['a'], ['b']]
    focus := true
    blink := false
    col := 0
    row := 0
    offset := 0
    offsetRight := 0
    cursorMode := CursorMode.blinkMode
    viewport := { width := 1, height := 2, yOffset := 0 } }

/-- C7 counterexample: on a masked model whose current row overflows the
width, wordLeft does move the cursor to column 0 but rewrites the buffer
(the claim asserts the buffer contents are unchanged). -/
theorem c7_masked_wordleft_rewrites_buffer :
    wordLeftF 20 c7Model = some (c7Res, true) ∧
      c7Res.value = some [['a'], ['b']] ∧
      c7Model.value = some [['a', 'b'], []] ∧
      c7Res.value ≠ c7Model.value := by
  refine ⟨by decide, rfl, rfl, by decide⟩

/-- A masked two-line model whose rows fit the width. -/
def c7wModel : Model :=
  { Err := none
    echoMode := EchoMode.password
    CharLimit := 0
    Width := 5
    LineLimit := 2
    Height := 2
    id := 0
    blinkTag := 0
    value := some [['a', 'b'], []]
    focus := true
    blink := false
    col := 1
    row := 0
    offset := 0
    offsetRight := 0
    cursorMode := CursorMode.blinkMode
    viewport := { width := 5, height := 2, yOffset := 0 } }

/-- The result of wordLeft on c7wModel. -/
def c7wRes : Model :=
  { Err := none
    echoMode := EchoMode.password
    CharLimit := 0
    Width := 5
    LineLimit := 2
    Height := 2
    id := 0
    blinkTag := 0
    value := some [['a', 'b'], []]
    focus := true
    blink := false
    col := 0
    row := 0
    offset := 0
    offsetRight := 0
    cursorMode := CursorMode.blinkMode
    viewport := { width := 5, height := 2, yOffset := 0 } }

/-- C7 witness: the amended theorem applied to a concrete masked model,
on which wordLeft jumps to column 0 without touching the buffer. -/
theorem c7_masked_word_nav_witness :
    c7wRes.col = 0 ∧ c7wRes.value = c7wModel.value ∧
      c7wRes.row = c7wModel.row :=
  (c7_masked_word_nav 19 c7wModel [['a', 'b'], []] ['a', 'b']
    ⟨⟨_, rfl⟩, by decide, by decide, by decide, by decide⟩ rfl (by decide)
    (by decide) (by decide) (by decide)).1 c7wRes true (by decide) (by decide)

end Textinput

namespace Textinput

theorem overflow_proj2 (f : Nat) (m m' : Model) (rows : List (List Char))
    (h : handleOverflowF (f + 1) m = some m')
    (hv : m.value = some rows)
    (hfit : 1 < m.LineLimit → rowsFitB m.Width rows = true)
    (hW : 1 < m.LineLimit → 1 ≤ m.Width)
    (hadv : 1 < m.LineLimit →
      ¬(m.Width < m.col ∧ m.row ≠ m.LineLimit - 1)) :
    m'.value = m.value ∧ m'.row = m.row ∧ m'.col = m.col :=
  overflow_proj f m m' rows hv hfit hW hadv h

/-- C5 (amended): on a focused multi-line model with the cursor at
column 0 of a row below the first, Backspace first moves the cursor to
the end of the previous row, and only then decides: if the previous row
is at width capacity and the current row is nonempty the merge is
dropped with the buffer unchanged — but the cursor move is already
visible (the original claim's atomicity fails); otherwise the current
row is appended to the previous row, later rows shift up one, and the
last row is cleared. -/
theorem c5_backspace_merge (f : Nat) (m m' : Model) (c : Cmd)
    (rows : List (List Char)) (cur prev : List Char)
    (hpre : Pre m) (hv : m.value = some rows)
    (hLL : 1 < m.LineLimit) (hcol : m.col = 0) (hrow : 0 < m.row)
    (hfoc : m.focus = true)
    (hfit : rowsFitB m.Width rows = true)
    (hlast : glen (rows.getD (m.LineLimit - 1).toNat []) ≤ m.Width)
    (hcur : gget rows m.row = some cur)
    (hprev : gget rows (m.row - 1) = some prev)
    (h : updateF (f + 1) m (Msg.key KeyType.backspace false []) =
      some (m', c)) :
    (¬ cur.isEmpty = true ∧ m.Width ≤ glen prev →
      m'.value = m.value ∧ m'.row = m.row - 1 ∧ m'.col = glen prev) ∧
    ((cur.isEmpty = true ∨ glen prev < m.Width) →
      glen prev + glen cur ≤ m.Width →
      m'.row = m.row - 1 ∧ m'.col = glen prev ∧
      ∃ rows', m'.value = some rows' ∧
        glen rows' = m.LineLimit ∧
        gget rows' (m.row - 1) = some (prev ++ cur) ∧
        gget rows' (m.LineLimit - 1) = some [] ∧
        (∀ j : Int, 0 ≤ j → j < m.row - 1 → gget rows' j = gget rows j) ∧
        (∀ j : Int, m.row - 1 < j → j < m.LineLimit - 1 →
          gget rows' j = gget rows (j + 1))) := by
  obtain ⟨⟨rows0, hv0⟩, hlen, hr0, hr1, hWmk⟩ := hpre
  have hW1 : 1 ≤ m.Width := hWmk hLL
  have hlen' : glen rows = m.LineLimit := by
    rw [show rowsD m = rows from by simp [rowsD, hv]] at hlen
    exact hlen
  have hlenN : (rows.length : Int) = m.LineLimit := hlen'
  have hprevW : glen prev ≤ m.Width := by
    have hidx : (m.row - 1).toNat + 1 < rows.length := by omega
    have hb := rowsFitB_bound hfit (m.row - 1).toNat hidx
    have hget : rows.getD (m.row - 1).toNat [] = prev := by
      have hx := gget_getD (l := rows) (i := m.row - 1) [] (by omega) (by omega)
      rw [hprev] at hx
      exact (Option.some_inj.mp hx).symm
    rw [hget] at hb
    exact hb
  -- unfold the Update step
  unfold updateF at h
  rw [if_neg (by simp [hfoc])] at h
  rw [hv] at h
  simp only [Option.bind_eq_bind, Option.some_bind, Option.pure_def] at h
  simp only [Option.bind_eq_bind, Option.bind_eq_some, Option.pure_def,
    Option.some_inj, Prod.mk.injEq] at h
  obtain ⟨m1, hkc, m2, hov, hout, hc⟩ := h
  -- the backspace arm
  unfold keyCaseF at hkc
  rw [if_neg (by simp)] at hkc
  rw [if_pos ⟨hcol, hrow⟩] at hkc
  rw [hv] at hkc
  simp only [Option.bind_eq_bind, Option.some_bind] at hkc
  rw [hcur] at hkc
  simp only [Option.some_bind] at hkc
  rw [lineUp_gt hrow] at hkc
  simp only [Option.bind_eq_some] at hkc
  obtain ⟨⟨m3, b3⟩, hce, hkc⟩ := hkc
  -- the cursorEnd call on the lineUp'd model
  have hpreL : Pre { m with
      value := some rows,
      row := m.row - 1,
      viewport := { m.viewport with
        yOffset := m.row - 1 - Int.tdiv m.Height 2 } } := by
    refine ⟨⟨rows, rfl⟩, ?_, ?_, ?_, fun _ => hW1⟩
    · show glen (Option.getD (some rows) []) = m.LineLimit
      simp only [Option.getD_some]
      exact hlen'
    · show (0 : Int) ≤ m.row - 1
      omega
    · show m.row - 1 < m.LineLimit
      omega
  unfold cursorEndF at hce
  rw [show ({ m with
    row := m.row - 1,
    viewport := { m.viewport with
      yOffset := m.row - 1 - Int.tdiv m.Height 2 } } : Model).value =
    m.value from rfl, hv] at hce
  simp only [Option.bind_eq_bind, Option.some_bind] at hce
  rw [show (gget rows ({ m with
    value := some rows,
    row := m.row - 1,
    viewport := { m.viewport with
      yOffset := m.row - 1 - Int.tdiv m.Height 2 } } : Model).row) =
    gget rows (m.row - 1) from rfl, hprev] at hce
  simp only [Option.some_bind] at hce
  obtain ⟨hm3col, hm3val, hm3row⟩ := setCursor_proj f ({ m with
      value := some rows,
      row := m.row - 1,
      viewport := { m.viewport with
        yOffset := m.row - 1 - Int.tdiv m.Height 2 } }) m3 b3 (glen prev)
    rows prev rfl hprev (fun _ => hfit) (fun _ => hW1) (by
      intro _
      show ¬(m.Width < clamp (glen prev) 0 (glen prev) ∧
        m.row - 1 ≠ m.LineLimit - 1)
      rw [clamp_of_mem (glen prev) 0 (glen prev) (glen_nonneg prev) le_rfl]
      intro hcontra
      omega) hce
  rw [clamp_of_mem (glen prev) 0 (glen prev) (glen_nonneg prev) le_rfl]
    at hm3col
  obtain ⟨hpre3, hci3, hcfg3⟩ := setCursor_inv (f + 1) ({ m with
      value := some rows,
      row := m.row - 1,
      viewport := { m.viewport with
        yOffset := m.row - 1 - Int.tdiv m.Height 2 } }) m3 (glen prev) b3
    hpreL hce
  have hm3W : m3.Width = m.Width := hcfg3.2.1
  have hm3LL : m3.LineLimit = m.LineLimit := hcfg3.1
  have hm3val' : m3.value = some rows := by
    rw [hm3val]
  have hm3row' : m3.row = m.row - 1 := hm3row
  -- back in the backspace arm
  rw [hm3val'] at hkc
  simp only [Option.bind_eq_bind, Option.some_bind] at hkc
  rw [hm3row'] at hkc
  obtain ⟨rows3, hrows3, r3, hr3, hkc⟩ := hkc
  rw [Option.some_inj] at hrows3
  subst hrows3
  rw [hprev] at hr3
  rw [Option.some_inj] at hr3
  subst hr3
  rw [hm3W, hm3LL] at hkc
  by_cases hg : ¬ cur.isEmpty = true ∧ glen prev ≥ m.Width
  case pos =>
    rw [if_pos hg] at hkc
    simp only [Option.pure_def, Option.some_inj] at hkc
    subst hkc
    obtain ⟨hval2, hrow2, hcol2⟩ := overflow_proj f m3 m2 rows hm3val'
      (by
        intro _
        rw [hm3W]
        exact hfit)
      (by
        intro _
        rw [hm3W]
        exact hW1)
      (by
        intro _
        rw [hm3W, hm3col, hm3row']
        intro hcontra
        omega) hov
    constructor
    · intro _
      refine ⟨?_, ?_, ?_⟩
      · rw [← hout, hval2, hm3val', hv]
      · rw [← hout, hrow2, hm3row']
      · rw [← hout, hcol2, hm3col]
    · intro hmerge hsum
      exfalso
      cases hmerge with
      | inl he => exact hg.1 he
      | inr hlt => omega
  case neg =>
    rw [if_neg hg] at hkc
    rw [show m.row - 1 + 1 = m.row from by omega] at hkc
    rw [hcur] at hkc
    simp only [Option.some_bind, Option.bind_eq_bind, Option.bind_eq_some,
      Option.pure_def, Option.some_inj] at hkc
    obtain ⟨rows4, hset4, rows5, hsu, rows6, hset6, hkc⟩ := hkc
    subst hkc
    constructor
    · intro hdrop
      exfalso
      apply hg
      exact ⟨hdrop.1, by omega⟩
    · intro hmerge hsum
      -- lengths
      obtain ⟨hs40, hs41, hrows4⟩ := gset_eq_some hset4
      have hlen4 : glen rows4 = glen rows := by
        rw [hrows4]
        simp only [glen, List.length_set]
      unfold shiftUpF at hsu
      obtain ⟨hlen5n, hkeep5⟩ := shiftUpLoop_facts _ _ _ _ _ hsu
      obtain ⟨hshift5, hge5⟩ := shiftUpLoop_shift _ _ _ _ _ rfl hsu
      have hlen5 : glen rows5 = glen rows4 := by
        simp only [glen, hlen5n]
      obtain ⟨hs60, hs61, hrows6⟩ := gset_eq_some hset6
      have hlen6 : glen rows6 = glen rows5 := by
        rw [hrows6]
        simp only [glen, List.length_set]
      have hlen6' : glen rows6 = m.LineLimit := by
        rw [hlen6, hlen5, hlen4, hlen']
      -- row contents of rows6
      have hg6prev : gget rows6 (m.row - 1) = some (prev ++ cur) := by
        rw [gget_gset_other hset6 (by omega)]
        rw [hkeep5 (m.row - 1) (by omega)]
        exact gget_gset_self hset4
      have hg6last : gget rows6 (m.LineLimit - 1) = some [] :=
        gget_gset_self hset6
      have hg6lo : ∀ j : Int, 0 ≤ j → j < m.row - 1 →
          gget rows6 j = gget rows j := by
        intro j hj0 hj1
        rw [gget_gset_other hset6 (by omega)]
        rw [hkeep5 j (by omega)]
        exact gget_gset_other hset4 (by omega)
      have hg6hi : ∀ j : Int, m.row - 1 < j → j < m.LineLimit - 1 →
          gget rows6 j = gget rows (j + 1) := by
        intro j hj0 hj1
        rw [gget_gset_other hset6 (by omega)]
        rw [hshift5 j (by omega) (by omega)]
        exact gget_gset_other hset4 (by omega)
      -- the final overflow pass is the identity on the buffer
      have hfit6 : rowsFitB m.Width rows6 = true := by
        apply rowsFitB_of_bounds
        intro i hi
        have hilen : (i : Int) + 1 < m.LineLimit := by
          have hx : (rows6.length : Int) = m.LineLimit := hlen6'
          omega
        have hgi : gget rows6 (i : Int) =
            some (rows6.getD i []) := by
          apply gget_getD [] (by omega)
          rw [hlen6']
          omega
        by_cases hcase1 : (i : Int) < m.row - 1
        · have hx := hg6lo (i : Int) (by omega) hcase1
          rw [hgi] at hx
          have hgix := gget_getD (l := rows) (i := (i : Int)) [] (by omega)
            (by omega)
          rw [hgix] at hx
          rw [Option.some_inj] at hx
          rw [hx]
          have hidx2 : i + 1 < rows.length := by omega
          exact rowsFitB_bound hfit i hidx2
        · by_cases hcase2 : (i : Int) = m.row - 1
          · rw [hcase2] at hgi
            rw [hg6prev] at hgi
            rw [Option.some_inj] at hgi
            rw [← hgi]
            rw [glen_append]
            omega
          · have hx := hg6hi (i : Int) (by omega) (by omega)
            rw [hgi] at hx
            have hgix := gget_getD (l := rows) (i := (i : Int) + 1) []
              (by omega) (by omega)
            rw [hgix] at hx
            rw [Option.some_inj] at hx
            rw [hx]
            by_cases hcase3 : (i : Int) + 1 < m.LineLimit - 1
            · have hidx2 : (i + 1) + 1 < rows.length := by omega
              have hb := rowsFitB_bound hfit (i + 1) hidx2
              rw [show ((i : Int) + 1).toNat = i + 1 from by omega]
              exact hb
            · have hieq : (i : Int) + 1 = m.LineLimit - 1 := by omega
              rw [hieq]
              exact hlast
      obtain ⟨hval2, hrow2, hcol2⟩ := overflow_proj2 f _ m2 rows6 hov rfl
        (by
          intro _
          show rowsFitB m.Width rows6 = true
          exact hfit6)
        (by
          intro _
          show 1 ≤ m.Width
          exact hW1)
        (by
          intro _
          show ¬(m.Width < m3.col ∧ m.row - 1 ≠ m.LineLimit - 1)
          rw [hm3col]
          intro hcontra
          omega)
      refine ⟨?_, ?_, rows6, ?_, hlen6', hg6prev, hg6last, hg6lo, hg6hi⟩
      · rw [← hout]
        exact hrow2
      · rw [← hout]
        exact hcol2.trans hm3col
      · rw [← hout]
        exact hval2

end Textinput

namespace Textinput

/-- A focused three-line model whose destination row is at width capacity
(5 of 5) and whose current row is nonempty, with the cursor at column 0
of row 1: Backspace must drop the merge. -/
def c5Model : Model :=
  { Err := none
    echoMode := EchoMode.normal
    CharLimit := 0
    Width := 5
    LineLimit := 3
    Height := 3
    id := 0
    blinkTag := 0
    value := some [['a', 'b', 'c', 'd', 'e'], ['x'], []]
    focus := true
    blink := false
    col := 0
    row := 1
    offset := 0
    offsetRight := 0
    cursorMode := CursorMode.blinkMode
    viewport := { width := 5, height := 3, yOffset := 0 } }

/-- The model after the dropped Backspace merge on c5Model. -/
def c5DropRes : Model :=
  { Err := none
    echoMode := EchoMode.normal
    CharLimit := 0
    Width := 5
    LineLimit := 3
    Height := 3
    id := 0
    blinkTag := 0
    value := some [['a', 'b', 'c', 'd', 'e'], ['x'], []]
    focus := true
    blink := false
    col := 5
    row := 0
    offset := 0
    offsetRight := 0
    cursorMode := CursorMode.blinkMode
    viewport := { width := 5, height := 3, yOffset := -1 } }

/-- C5 counterexample: when the merge would overflow the destination row,
the buffer is indeed left unchanged, but the operation is not dropped
whole — the cursor has already moved to the end of the previous row
(row 1 → 0, column 0 → 5), so partial application is visible. -/
theorem c5_overflow_drop_moves_cursor :
    updateF 20 c5Model (Msg.key KeyType.backspace false []) =
      some (c5DropRes, Cmd.nilCmd) ∧
    c5DropRes.value = c5Model.value ∧
    c5Model.row = 1 ∧ c5Model.col = 0 ∧
    c5DropRes.row = 0 ∧ c5DropRes.col = 5 :=
  ⟨by decide, rfl, rfl, rfl, rfl, rfl⟩

/-- A focused three-line model on which the Backspace merge fits. -/
def c5wModel : Model :=
  { Err := none
    echoMode := EchoMode.normal
    CharLimit := 0
    Width := 5
    LineLimit := 3
    Height := 3
    id := 0
    blinkTag := 0
    value := some [['a', 'b'], ['x'], []]
    focus := true
    blink := false
    col := 0
    row := 1
    offset := 0
    offsetRight := 0
    cursorMode := CursorMode.blinkMode
    viewport := { width := 5, height := 3, yOffset := 0 } }

/-- The model after the merging Backspace on c5wModel. -/
def c5wRes : Model :=
  { Err := none
    echoMode := EchoMode.normal
    CharLimit := 0
    Width := 5
    LineLimit := 3
    Height := 3
    id := 0
    blinkTag := 0
    value := some [['a', 'b', 'x'], [], []]
    focus := true
    blink := false
    col := 2
    row := 0
    offset := 0
    offsetRight := 0
    cursorMode := CursorMode.blinkMode
    viewport := { width := 5, height := 3, yOffset := -1 } }

/-- C5 witness: the amended theorem applied to a concrete fitting merge,
yielding the merged buffer with shifted rows, cleared last row, and the
cursor at the former end of the destination row. -/
theorem c5_backspace_merge_witness :
    c5wRes.row = c5wModel.row - 1 ∧ c5wRes.col = glen ['a', 'b'] ∧
    ∃ rows', c5wRes.value = some rows' ∧
      glen rows' = c5wModel.LineLimit ∧
      gget rows' (c5wModel.row - 1) = some (['a', 'b'] ++ ['x']) ∧
      gget rows' (c5wModel.LineLimit - 1) = some [] ∧
      (∀ j : Int, 0 ≤ j → j < c5wModel.row - 1 →
        gget rows' j = gget [['a', 'b'], ['x'], []] j) ∧
      (∀ j : Int, c5wModel.row - 1 < j → j < c5wModel.LineLimit - 1 →
        gget rows' j = gget [['a', 'b'], ['x'], []] (j + 1)) :=
  (c5_backspace_merge 19 c5wModel c5wRes Cmd.nilCmd
    [['a', 'b'], ['x'], []] ['x'] ['a', 'b']
    ⟨⟨_, rfl⟩, by decide, by decide, by decide, by decide⟩ rfl (by decide)
    rfl (by decide) rfl (by decide) (by decide) (by decide) (by decide)
    (by decide)).2 (by decide) (by decide)

end Textinput
